import Mathlib

/-!
Verification of the game-tree search engine in `src/search.py`.

The search core (`minimax`, `alphabeta`, `stochastic`, `stochasticHelper`,
and the baseline `random`) is embedded shallowly:

* Python floats (including `math.inf` / `-math.inf`) are modelled by
  `XQ := WithBot (WithTop ℚ)`: `⊥` is `-inf`, `⊤` is `+inf`, and finite
  values are rationals.  The only float operations the code performs are
  comparisons, `max`/`min`, addition of finite values and division, all of
  which agree with the exact rational model (no NaNs arise).
* The external collaborators (`generateMoves` built on `chess.lib`,
  `makeMove`, `evaluate`, `encode`) are parameters, collected in a `Game`
  structure; move keys are modelled as naturals.
* Python exceptions are modelled with `Except Err`: `moves[0]` on an empty
  list and `chooser(moves)` on an empty list raise `indexError`,
  `sum/breadth` with `breadth == 0` raises `zeroDivisionError`, and
  unbounded recursion (negative depth) exhausts the CPython stack and
  raises `recursionError`, modelled with an explicit fuel parameter.
* Python dicts are insertion-ordered association lists: assignment to an
  existing key overwrites in place, assignment to a fresh key appends, and
  `dict.update` folds the second dict into the first key by key.
* The impure `chooser` passed to `stochastic` / `random` is modelled as a
  function of a call counter (threaded through every call), so distinct
  invocations may make distinct choices; a chooser returns `none` exactly
  when it fails on its input (as `random.choice` does on an empty list).
-/

/-- Extended rationals: the value domain of the search (Python floats with
`-inf` = `⊥` and `+inf` = `⊤`). -/
abbrev XQ : Type := WithBot (WithTop ℚ)

/-- Embed a finite score. -/
def XQ.fin (q : ℚ) : XQ := ((q : WithTop ℚ) : WithBot (WithTop ℚ))

/-- `-math.inf` -/
def XQ.ninf : XQ := ⊥

/-- `math.inf` -/
def XQ.pinf : XQ := ((⊤ : WithTop ℚ) : WithBot (WithTop ℚ))

/-- `moveValue > heuristic` test of the source: for `side = False` (Max) the
new value must be strictly greater, for `side = True` (Min) strictly less. -/
def betterB (side : Bool) (h v : XQ) : Bool :=
  if side then decide (v < h) else decide (h < v)

/-- Python exceptions raised by the code under `src/`. -/
inductive Err : Type where
  | indexError : Err
  | zeroDivisionError : Err
  | recursionError : Err
deriving DecidableEq, Repr

/-- The move tree: a Python dict from encoded moves to move trees,
modelled as an insertion-ordered association list. -/
inductive MoveTree : Type where
  | node : List (ℕ × MoveTree) → MoveTree

/-- Entries of a tree. -/
def MoveTree.entries : MoveTree → List (ℕ × MoveTree)
  | .node es => es

/-- `d[k] = v` on a Python dict: overwrite in place at the key's position
if the key is present, append otherwise. -/
def dictSet : List (ℕ × MoveTree) → ℕ → MoveTree → List (ℕ × MoveTree)
  | [], k, v => [(k, v)]
  | p :: r, k, v => if p.1 = k then (k, v) :: r else p :: dictSet r k v

/-- Key membership in a Python dict. -/
def dictHas : List (ℕ × MoveTree) → ℕ → Bool
  | [], _ => false
  | p :: r, k => p.1 = k || dictHas r k

/-- `d[k]` with default `{}` (only used under a `dictHas` guard). -/
def dictGetD : List (ℕ × MoveTree) → ℕ → List (ℕ × MoveTree)
  | [], _ => []
  | p :: r, k => if p.1 = k then p.2.entries else dictGetD r k

/-- Lookup in a Python dict. -/
def dictGet? : List (ℕ × MoveTree) → ℕ → Option MoveTree
  | [], _ => none
  | p :: r, k => if p.1 = k then some p.2 else dictGet? r k

/-- `d.update(other)`: fold the entries of `other` into `d` key by key
(`d[k] = other[k]` for each `k` of `other`, in order). -/
def dictUpdate (d other : List (ℕ × MoveTree)) : List (ℕ × MoveTree) :=
  other.foldl (fun acc p => dictSet acc p.1 p.2) d

mutual
/-- Total number of dict entries in a move tree, at all nesting levels. -/
def MoveTree.count : MoveTree → ℕ
  | .node es => countEntries es

/-- Node count of an entry list. -/
def countEntries : List (ℕ × MoveTree) → ℕ
  | [] => 0
  | (_, t) :: r => (1 + MoveTree.count t) + countEntries r
end

/-- `some d` iff the tree is a linear chain (exactly one entry per level)
of nesting depth `d`. -/
def MoveTree.chainHeight : MoveTree → Option ℕ
  | .node [] => some 0
  | .node [(_, t)] => (MoveTree.chainHeight t).map (fun n => n + 1)
  | .node (_ :: _ :: _) => none

mutual
/-- Whether key `k` occurs anywhere in the tree. -/
def MoveTree.hasKeyAnywhere : MoveTree → ℕ → Bool
  | .node es, k => hasKeyEntries es k

/-- Auxiliary for `MoveTree.hasKeyAnywhere`. -/
def hasKeyEntries : List (ℕ × MoveTree) → ℕ → Bool
  | [], _ => false
  | (k', t) :: r, k => k' = k || MoveTree.hasKeyAnywhere t k || hasKeyEntries r k
end

/-- The external game-rules collaborators consumed by the search core
(`generateMoves`, `makeMove` from `chess.lib.core`, `evaluate` from
`chess.lib.heuristics`, `encode` from `chess.lib.utils`). -/
structure Game : Type 1 where
  Board : Type
  Flags : Type
  Move : Type
  generateMoves : Bool → Board → Flags → List Move
  makeMove : Bool → Board → Flags → Move → Bool × Board × Flags
  evaluate : Board → ℚ
  encode : Move → ℕ

/-- A search result: `(value, moveList, moveTree)` plus the final chooser
call counter where one is threaded. -/
abbrev SR (G : Game) : Type := XQ × List G.Move × MoveTree

/-- The shared loop body of `minimax` (lines 73-101 of `search.py`),
abstracted over the recursive call `child` at depth `depth - 1`.
The accumulator is `(heuristic, bestMove, bestList, moveTree)`. -/
def mmLoop (G : Game) (child : Bool → G.Board → G.Flags → Except Err (SR G))
    (side : Bool) (board : G.Board) (flags : G.Flags) :
    List G.Move → XQ × G.Move × List G.Move × List (ℕ × MoveTree) →
    Except Err (XQ × G.Move × List G.Move × List (ℕ × MoveTree))
  | [], acc => .ok acc
  | mv :: rest, (h, bm, bl, t) =>
    match G.makeMove side board flags mv with
    | (newSide, newBoard, newFlags) =>
      match child newSide newBoard newFlags with
      | .error e => .error e
      | .ok (v, l1, t1) =>
        let t' := dictSet t (G.encode mv) t1
        if betterB side h v then
          mmLoop G child side board flags rest (v, mv, l1, t')
        else
          mmLoop G child side board flags rest (h, bm, bl, t')

/-- `minimax(side, board, flags, depth)` of `search.py` for `depth ≥ 0`.
`bestMove = moves[0]` on an empty move list raises `IndexError`. -/
def minimax (G : Game) (side : Bool) (board : G.Board) (flags : G.Flags) :
    ℕ → Except Err (SR G)
  | 0 => .ok (.fin (G.evaluate board), [], .node [])
  | d + 1 =>
    match G.generateMoves side board flags with
    | [] => .error .indexError
    | m0 :: rest =>
      match mmLoop G (fun s b f => minimax G s b f d) side board flags
          (m0 :: rest) ((if side then XQ.pinf else XQ.ninf), m0, [], []) with
      | .error e => .error e
      | .ok (h, bm, bl, t) => .ok (h, bm :: bl, .node t)

/-- The tightened bounds owned by the current node after the best-move
update: `alpha = max(alpha, heuristic)` at a Max node (`side = False`),
`beta = min(beta, heuristic)` at a Min node (`side = True`). -/
def nextBounds (side : Bool) (alpha beta h : XQ) : XQ × XQ :=
  if side then (alpha, min beta h) else (max alpha h, beta)

/-- The `beta <= alpha` break test of `alphabeta`, evaluated on the bounds
after tightening. -/
def cutB (side : Bool) (alpha beta h : XQ) : Bool :=
  decide ((nextBounds side alpha beta h).2 ≤ (nextBounds side alpha beta h).1)

/-- The loop body of `alphabeta` (lines 133-171 of `search.py`), abstracted
over the recursive call `child` at depth `depth - 1`.  After the best-move
update the node-owned bound is tightened (`nextBounds`) and the loop breaks
as soon as `beta <= alpha` (`cutB`). -/
def abLoop (G : Game)
    (child : Bool → G.Board → G.Flags → XQ → XQ → Except Err (SR G))
    (side : Bool) (board : G.Board) (flags : G.Flags) :
    List G.Move → XQ → XQ → XQ × G.Move × List G.Move × List (ℕ × MoveTree) →
    Except Err (XQ × G.Move × List G.Move × List (ℕ × MoveTree))
  | [], _, _, acc => .ok acc
  | mv :: rest, alpha, beta, (h, bm, bl, t) =>
    match G.makeMove side board flags mv with
    | (newSide, newBoard, newFlags) =>
      match child newSide newBoard newFlags alpha beta with
      | .error e => .error e
      | .ok (v, l1, t1) =>
        let t' := dictSet t (G.encode mv) t1
        let acc' := if betterB side h v then (v, mv, l1, t') else (h, bm, bl, t')
        if cutB side alpha beta acc'.1 then .ok acc'
        else abLoop G child side board flags rest
          (nextBounds side alpha beta acc'.1).1
          (nextBounds side alpha beta acc'.1).2 acc'

/-- `alphabeta(side, board, flags, depth, alpha, beta)` of `search.py` for
`depth ≥ 0`; the Python default arguments are `alpha = -inf`, `beta = inf`. -/
def alphabeta (G : Game) (side : Bool) (board : G.Board) (flags : G.Flags) :
    ℕ → XQ → XQ → Except Err (SR G)
  | 0, _, _ => .ok (.fin (G.evaluate board), [], .node [])
  | d + 1, alpha, beta =>
    match G.generateMoves side board flags with
    | [] => .error .indexError
    | m0 :: rest =>
      match abLoop G (fun s b f a bt => alphabeta G s b f d a bt) side board
          flags (m0 :: rest) alpha beta
          ((if side then XQ.pinf else XQ.ninf), m0, [], []) with
      | .error e => .error e
      | .ok (h, bm, bl, t) => .ok (h, bm :: bl, .node t)

/-- `minimax` again, but with the `depth` parameter an integer as in Python
and an explicit fuel bound on the recursion stack: a call with negative
`depth` never reaches the `depth == 0` base case and dies of
`RecursionError` when the stack (fuel) is exhausted. -/
def minimaxFuel (G : Game) :
    ℕ → Bool → G.Board → G.Flags → ℤ → Except Err (SR G)
  | 0, _, _, _, _ => .error .recursionError
  | fuel + 1, side, board, flags, depth =>
    if depth = 0 then .ok (.fin (G.evaluate board), [], .node [])
    else
      match G.generateMoves side board flags with
      | [] => .error .indexError
      | m0 :: rest =>
        match mmLoop G (fun s b f => minimaxFuel G fuel s b f (depth - 1))
            side board flags (m0 :: rest)
            ((if side then XQ.pinf else XQ.ninf), m0, [], []) with
        | .error e => .error e
        | .ok (h, bm, bl, t) => .ok (h, bm :: bl, .node t)

/-- The baseline `random(side, board, flags, chooser)` of `search.py`
(lines 21-41).  The chooser is invoked once when moves exist (advancing the
call counter); with no legal moves the position is treated as terminal. -/
def randomBaseline (G : Game) (chooser : ℕ → List G.Move → Option G.Move)
    (side : Bool) (board : G.Board) (flags : G.Flags) (c : ℕ) :
    Except Err (XQ × List G.Move × MoveTree × ℕ) :=
  let moves := G.generateMoves side board flags
  if 0 < moves.length then
    match chooser c moves with
    | none => .error .indexError
    | some move =>
      match G.makeMove side board flags move with
      | (_, newBoard, _) =>
        .ok (.fin (G.evaluate newBoard), [move],
             .node [(G.encode move, .node [])], c + 1)
  else .ok (.fin (G.evaluate board), [], .node [], c)

/-- `stochasticHelper(side, board, flags, depth, chooser)` of `search.py`
(lines 239-252), with integer `depth`, fuel for the recursion stack and the
chooser call counter threaded through.  `chooser(moves)` failing (as
`random.choice` does on an empty sequence) raises `IndexError`. -/
def stochasticHelper (G : Game) (chooser : ℕ → List G.Move → Option G.Move) :
    ℕ → Bool → G.Board → G.Flags → ℤ → ℕ → Except Err (ℚ × MoveTree × ℕ)
  | 0, _, _, _, _, _ => .error .recursionError
  | fuel + 1, side, board, flags, depth, c =>
    if depth = 0 then .ok (G.evaluate board, .node [], c)
    else
      let moves := G.generateMoves side board flags
      match chooser c moves with
      | none => .error .indexError
      | some move =>
        match G.makeMove side board flags move with
        | (newSide, newBoard, newFlags) =>
          match stochasticHelper G chooser fuel newSide newBoard newFlags
              (depth - 1) (c + 1) with
          | .error e => .error e
          | .ok (v, t1, c') => .ok (v, .node [(G.encode move, t1)], c')

/-- The inner `for i in range(breadth)` loop of `stochastic` (lines 203-211
and 223-230): run one sample per iteration, add its value to `sum`, and fold
its tree into `moveTree[encodedMove]` — `dict.update` if the key is present,
plain assignment otherwise. -/
def sampleLoop (G : Game) (chooser : ℕ → List G.Move → Option G.Move)
    (newSide : Bool) (newBoard : G.Board) (newFlags : G.Flags) (depth : ℤ)
    (fuel : ℕ) (k : ℕ) :
    ℕ → ℕ → ℚ → List (ℕ × MoveTree) →
    Except Err (ℚ × List (ℕ × MoveTree) × ℕ)
  | 0, c, s, t => .ok (s, t, c)
  | i + 1, c, s, t =>
    match stochasticHelper G chooser fuel newSide newBoard newFlags depth c with
    | .error e => .error e
    | .ok (v, t1, c') =>
      let t'' :=
        if dictHas t k then
          dictSet t k (.node (dictUpdate (dictGetD t k) t1.entries))
        else dictSet t k t1
      sampleLoop G chooser newSide newBoard newFlags depth fuel k i c' (s + v) t''

/-- The outer `for move in moves` loop of `stochastic` (lines 198-216 and
219-235): sample `range(breadth)` paths for the move, average them
(`sum / breadth`, a `ZeroDivisionError` when `breadth == 0`), and keep the
move on strict improvement of the average. -/
def stLoop (G : Game) (chooser : ℕ → List G.Move → Option G.Move)
    (side : Bool) (board : G.Board) (flags : G.Flags) (depth : ℤ)
    (breadth : ℤ) (fuel : ℕ) :
    List G.Move → XQ × G.Move → List (ℕ × MoveTree) → ℕ →
    Except Err (XQ × G.Move × List (ℕ × MoveTree) × ℕ)
  | [], (h, bm), t, c => .ok (h, bm, t, c)
  | mv :: rest, (h, bm), t, c =>
    match G.makeMove side board flags mv with
    | (newSide, newBoard, newFlags) =>
      match sampleLoop G chooser newSide newBoard newFlags (depth - 1) fuel
          (G.encode mv) breadth.toNat c 0 t with
      | .error e => .error e
      | .ok (s, t', c') =>
        if breadth = 0 then .error .zeroDivisionError
        else
          let average : ℚ := s / (breadth : ℚ)
          if betterB side h (.fin average) then
            stLoop G chooser side board flags depth breadth fuel rest
              (.fin average, mv) t' c'
          else
            stLoop G chooser side board flags depth breadth fuel rest
              (h, bm) t' c'

/-- `stochastic(side, board, flags, depth, breadth, chooser)` of `search.py`
(lines 177-237).  `bestMove = moves[0]` on an empty move list raises
`IndexError`; the returned move list is `[bestMove]` only. -/
def stochastic (G : Game) (chooser : ℕ → List G.Move → Option G.Move)
    (side : Bool) (board : G.Board) (flags : G.Flags) (depth : ℤ)
    (breadth : ℤ) (fuel : ℕ) (c : ℕ) :
    Except Err (XQ × List G.Move × MoveTree × ℕ) :=
  match G.generateMoves side board flags with
  | [] => .error .indexError
  | m0 :: rest =>
    match stLoop G chooser side board flags depth breadth fuel (m0 :: rest)
        ((if side then XQ.pinf else XQ.ninf), m0) [] c with
    | .error e => .error e
    | .ok (h, bm, t, c') => .ok (h, [bm], .node t, c')

/-- A one-position game with a single self-loop move: every position has
exactly one legal move.  Used to exercise non-terminating recursions. -/
@[reducible] def unitGame : Game :=
  Game.mk Unit Unit Unit (fun _ _ _ => [()])
    (fun s _ _ _ => (!s, (), ())) (fun _ => 0) (fun _ => 0)

/-- A game with no legal move anywhere. -/
@[reducible] def emptyGame : Game :=
  Game.mk Unit Unit Unit (fun _ _ _ => [])
    (fun s _ _ _ => (!s, (), ())) (fun _ => 7) (fun _ => 0)

/-- The toy game of the specification: state an integer `n`, the maximizer
(`side = false`) may move `n → n + 1`, the minimizer `n → n - 1`, both lose
all moves once `|n| ≥ 3`, `evaluate n = n`, move keys distinct. -/
@[reducible] def toyGame : Game :=
  Game.mk ℤ Unit ℤ
    (fun s n _ => if 3 ≤ |n| then [] else if s then [n - 1] else [n + 1])
    (fun s _ f m => (!s, m, f)) (fun n => (n : ℚ)) (fun m => m.toNat + 1)

/-- Destination board of each move in the pruning game `prGame`. -/
def prDest : ℕ → ℕ
  | 0 => 1 | 1 => 2 | 2 => 3 | 3 => 4 | 4 => 5 | 5 => 6 | 6 => 7 | _ => 99

/-- Legal moves of each board in the pruning game `prGame`. -/
def prMoves : ℕ → List ℕ
  | 0 => [0, 1] | 1 => [2] | 2 => [4, 5] | 3 => [3] | 5 => [6] | _ => []

/-- Evaluation of each board in the pruning game `prGame`. -/
def prEval : ℕ → ℚ
  | 4 => 5 | 7 => 3 | _ => 0

/-- A small concrete game in which alpha-beta prunes a subtree containing a
position with no legal moves (board 6), while minimax visits it. -/
@[reducible] def prGame : Game :=
  Game.mk ℕ Unit ℕ (fun _ b _ => prMoves b)
    (fun s _ f m => (!s, prDest m, f)) prEval (fun m => m)

/-- Legal moves of each board in the divergence game `ceGame`. -/
def ceMoves : ℕ → List ℕ
  | 0 => [0] | 1 => [1] | 2 => [2, 3] | _ => []

/-- Destination board of each move in the divergence game `ceGame`. -/
def ceDest : ℕ → ℕ
  | 0 => 1 | 1 => 2 | 2 => 3 | 3 => 4 | _ => 99

/-- A game whose random playouts from board 0 share their first two plies
and can diverge at the third ply (board 2 has two moves). -/
@[reducible] def ceGame : Game :=
  Game.mk ℕ Unit ℕ (fun _ b _ => ceMoves b)
    (fun s _ f m => (!s, ceDest m, f)) (fun b => (b : ℚ)) (fun m => m)

/-- A chooser for `ceGame` that picks the first available move except on its
fourth invocation (counter 3), where it picks the second: the two samples of
a `breadth = 2` run share the second-ply move but diverge at the third. -/
def ceChooser : ℕ → List ℕ → Option ℕ
  | c, l => if c = 3 then l.get? 1 else l.get? 0


/-- The per-move child results of a `minimax` node, in move-generation
order: for each move, apply `makeMove` and run the recursive search. -/
def childResults (G : Game)
    (child : Bool → G.Board → G.Flags → Except Err (SR G))
    (side : Bool) (board : G.Board) (flags : G.Flags) :
    List G.Move → Except Err (List (SR G))
  | [] => .ok []
  | mv :: rest =>
    match G.makeMove side board flags mv with
    | (newSide, newBoard, newFlags) =>
      match child newSide newBoard newFlags with
      | .error e => .error e
      | .ok x =>
        match childResults G child side board flags rest with
        | .error e => .error e
        | .ok rs => .ok (x :: rs)

/-- `v` sits at index `j` of `vals`, no value of `vals` is strictly better
than `v` for the given side, and `v` is strictly better than every value
before index `j`: index `j` is the first to achieve the extremum. -/
def IsFirstSel (side : Bool) (vals : List XQ) (j : ℕ) (v : XQ) : Prop :=
  j < vals.length ∧ vals.getD j XQ.ninf = v ∧
  (∀ i, i < vals.length → betterB side v (vals.getD i XQ.ninf) = false) ∧
  (∀ i, i < j → betterB side (vals.getD i XQ.ninf) v = true)

/-- Default search result used with `List.getD`. -/
def dfltSR (G : Game) : SR G := (XQ.ninf, [], .node [])

/-- What the strict-improvement selection loop computes, relative to a list
`mvs` of processed moves with child results `rs` and a running best
`(h0, bm0, bl0)`: either nothing strictly improved on `h0` and the running
best is unchanged, or the result is the child result of the first processed
move achieving the extremum of the processed values. -/
def SelSpec (G : Game) (side : Bool) (h0 : XQ) (bm0 : G.Move)
    (bl0 : List G.Move) (mvs : List G.Move) (rs : List (SR G))
    (H : XQ) (BM : G.Move) (BL : List G.Move) : Prop :=
  rs.length = mvs.length ∧
  (((H, BM, BL) = (h0, bm0, bl0) ∧ ∀ x ∈ rs, betterB side h0 x.1 = false) ∨
   (∃ j, j < rs.length ∧ H = (rs.getD j (dfltSR G)).1 ∧
      (∀ dm : G.Move, BM = mvs.getD j dm) ∧
      BL = (rs.getD j (dfltSR G)).2.1 ∧
      betterB side h0 H = true ∧
      (∀ i, i < rs.length → betterB side H (rs.getD i (dfltSR G)).1 = false) ∧
      (∀ i, i < j → betterB side (rs.getD i (dfltSR G)).1 H = true)))

/-! ### Basic facts about the value order and `betterB` -/

theorem betterB_self (side : Bool) (v : XQ) : betterB side v v = false := by
  cases side <;> simp [betterB]

theorem betterB_trans {side : Bool} {a b c : XQ} (h1 : betterB side a b = true)
    (h2 : betterB side b c = true) : betterB side a c = true := by
  cases side <;> simp [betterB] at *
  · exact lt_trans h1 h2
  · exact lt_trans h2 h1

theorem betterB_asymm {side : Bool} {a b : XQ} (h : betterB side a b = true) :
    betterB side b a = false := by
  cases side <;> simp [betterB] at *
  · exact le_of_lt h
  · exact le_of_lt h

theorem betterB_keep_trans {side : Bool} {h H v : XQ}
    (h1 : betterB side h H = true) (h2 : betterB side h v = false) :
    betterB side H v = false := by
  cases side <;> simp [betterB] at *
  · exact le_trans h2 (le_of_lt h1)
  · exact le_trans (le_of_lt h1) h2

theorem betterB_beat_old {side : Bool} {h H v : XQ}
    (h1 : betterB side h H = true) (h2 : betterB side h v = false) :
    betterB side v H = true := by
  cases side <;> simp [betterB] at *
  · exact lt_of_le_of_lt h2 h1
  · exact lt_of_lt_of_le h1 h2

theorem betterB_ninf (side : Bool) (q : ℚ) :
    betterB side (if side then XQ.pinf else XQ.ninf) (XQ.fin q) = true := by
  cases side <;> simp [betterB, XQ.fin, XQ.ninf, XQ.pinf, WithBot.bot_lt_iff_ne_bot]
  exact WithBot.coe_lt_coe.mpr (WithTop.coe_lt_top q)

/-! ### C6, C2, C9: base cases and empty-move behavior -/

/-- C6: for every side, board and flags, `minimax(side, board, flags, 0)`
returns exactly `(evaluate(board), [], {})`, and so does
`alphabeta(side, board, flags, 0)` for any `alpha` and `beta`. -/
theorem depth_zero_identity (G : Game) (side : Bool) (board : G.Board)
    (flags : G.Flags) :
    minimax G side board flags 0 =
      .ok (.fin (G.evaluate board), [], .node []) ∧
    ∀ alpha beta : XQ, alphabeta G side board flags 0 alpha beta =
      .ok (.fin (G.evaluate board), [], .node []) :=
  ⟨rfl, fun _ _ => rfl⟩

/-- C2: on a position with no legal moves, all of `minimax`, `alphabeta`
and `stochastic` evaluate `bestMove = moves[0]` on the empty list and raise
`IndexError` (for any positive depth, any bounds, any breadth), instead of
returning `(evaluate(board), [], {})` as the specification requires. -/
theorem search_no_moves_raise_indexError (G : Game) (side : Bool)
    (board : G.Board) (flags : G.Flags)
    (h : G.generateMoves side board flags = []) :
    (∀ d : ℕ, minimax G side board flags (d + 1) = .error .indexError) ∧
    (∀ (d : ℕ) (alpha beta : XQ),
      alphabeta G side board flags (d + 1) alpha beta = .error .indexError) ∧
    (∀ (depth breadth : ℤ) (fuel c : ℕ)
      (chooser : ℕ → List G.Move → Option G.Move),
      stochastic G chooser side board flags depth breadth fuel c =
        .error .indexError) := by
  refine ⟨fun d => ?_, fun d a b => ?_, fun dep br fuel c ch => ?_⟩ <;>
    simp [minimax, alphabeta, stochastic, h]

theorem search_no_moves_raise_indexError_witness :
    emptyGame.generateMoves false () () = [] ∧
    minimax emptyGame false () () 1 = .error .indexError :=
  ⟨rfl, (search_no_moves_raise_indexError emptyGame false () () rfl).1 0⟩

/-- C9: on a position with no legal moves the baseline `random` returns
`(evaluate(board), [], {})` without ever invoking the chooser: the result
does not depend on the chooser and the chooser call counter is unchanged. -/
theorem random_no_moves_terminal (G : Game) (side : Bool) (board : G.Board)
    (flags : G.Flags) (h : G.generateMoves side board flags = []) :
    ∀ (chooser : ℕ → List G.Move → Option G.Move) (c : ℕ),
      randomBaseline G chooser side board flags c =
        .ok (.fin (G.evaluate board), [], .node [], c) := by
  intro chooser c
  simp [randomBaseline, h]

theorem random_no_moves_terminal_witness :
    emptyGame.generateMoves true () () = [] ∧
    randomBaseline emptyGame (fun _ l => l.get? 0) true () () 5 =
      .ok (.fin 7, [], .node [], 5) :=
  ⟨rfl, random_no_moves_terminal emptyGame true () () rfl (fun _ l => l.get? 0) 5⟩

/-! ### C10: random playouts build linear chains -/

/-- C10: whenever `stochasticHelper` returns at a nonnegative depth `d`, its
move tree is a linear chain — exactly one key per nesting level — of
nesting depth exactly `d`, and for `d > 0` the single top-level key is the
move chosen by the selector at that ply. -/
theorem stochasticHelper_chain (G : Game)
    (chooser : ℕ → List G.Move → Option G.Move) :
    ∀ (fuel : ℕ) (side : Bool) (board : G.Board) (flags : G.Flags)
      (d c : ℕ) (v : ℚ) (t : MoveTree) (c' : ℕ),
      stochasticHelper G chooser fuel side board flags (d : ℤ) c =
        .ok (v, t, c') →
      t.chainHeight = some d ∧
      (0 < d → ∃ mv t1, chooser c (G.generateMoves side board flags) = some mv ∧
        t = .node [(G.encode mv, t1)]) := by
  intro fuel
  induction fuel with
  | zero => intro side board flags d c v t c' hrun; exact absurd hrun (by simp [stochasticHelper])
  | succ fuel ih =>
    intro side board flags d c v t c' hrun
    match d with
    | 0 =>
      simp [stochasticHelper] at hrun
      obtain ⟨_, ht, _⟩ := hrun
      subst ht
      simp [MoveTree.chainHeight]
    | e + 1 =>
      rw [stochasticHelper] at hrun
      have hne : ((e + 1 : ℕ) : ℤ) ≠ 0 := by positivity
      rw [if_neg hne] at hrun
      match hch : chooser c (G.generateMoves side board flags) with
      | none => simp [hch] at hrun
      | some mv =>
        simp only [hch] at hrun
        match hmk : G.makeMove side board flags mv with
        | (newSide, newBoard, newFlags) =>
          simp only [hmk] at hrun
          rw [show ((e + 1 : ℕ) : ℤ) - 1 = ((e : ℕ) : ℤ) by push_cast; ring] at hrun
          match hrec : stochasticHelper G chooser fuel newSide newBoard
              newFlags ((e : ℕ) : ℤ) (c + 1) with
          | .error e' => simp [hrec] at hrun
          | .ok (v1, t1, c1) =>
            simp only [hrec] at hrun
            simp at hrun
            obtain ⟨hv, ht, hc⟩ := hrun
            have := (ih newSide newBoard newFlags e (c + 1) v1 t1 c1 hrec).1
            subst ht
            constructor
            · simp [MoveTree.chainHeight, this]
            · intro _
              exact ⟨mv, t1, rfl, rfl⟩

theorem stochasticHelper_chain_witness :
    stochasticHelper ceGame ceChooser 10 true 1 () (2 : ℕ) 0 =
      .ok (3, .node [(1, .node [(2, .node [])])], 2) ∧
    (MoveTree.node [(1, .node [(2, .node [])])]).chainHeight = some 2 := by
  have h : stochasticHelper ceGame ceChooser 10 true 1 () (2 : ℕ) 0 =
      .ok (3, .node [(1, .node [(2, .node [])])], 2) := by
    norm_num [stochasticHelper, ceGame, ceChooser, ceMoves, ceDest]
  exact ⟨h, (stochasticHelper_chain ceGame ceChooser 10 true 1 () 2 0 3
    (.node [(1, .node [(2, .node [])])]) 2 h).1⟩

/-! ### C4: there is no argument validation -/

/-- C4: none of the entry points fails fast on invalid arguments.  On the
one-move game, a negative depth makes `minimax` recurse past every stack
bound until `RecursionError`; `stochastic` with `breadth = -1` silently
returns a normal result (average `0 / -1 = 0`, empty tree, chooser never
called); `stochastic` with `breadth = 0` dies of `ZeroDivisionError` while
processing the first move — in no case is an invalid-argument signal raised
before recursion/move processing begins. -/
theorem no_invalid_argument_check :
    (∀ (fuel : ℕ) (side : Bool) (d : ℤ), d < 0 →
      minimaxFuel unitGame fuel side () () d = .error .recursionError) ∧
    stochastic unitGame (fun _ l => l.get? 0) false () () 1 (-1) 10 0 =
      .ok (.fin 0, [()], .node [], 0) ∧
    stochastic unitGame (fun _ l => l.get? 0) false () () 1 0 10 0 =
      .error .zeroDivisionError := by
  refine ⟨fun fuel => ?_, ?_, ?_⟩
  · induction fuel with
    | zero => intro side d hd; simp [minimaxFuel]
    | succ fuel ih =>
      intro side d hd
      have hne : d ≠ 0 := by omega
      have hrec := ih (!side) (d - 1) (by omega)
      simp [minimaxFuel, hne, mmLoop, unitGame, hrec]
  · norm_num [stochastic, stLoop, sampleLoop, unitGame, betterB, XQ.fin, XQ.ninf]
    rw [if_pos (show (⊥ : XQ) < 0 by decide)]
  · norm_num [stochastic, stLoop, sampleLoop, unitGame, betterB, XQ.fin, XQ.ninf]

theorem no_invalid_argument_check_witness :
    (-1 : ℤ) < 0 ∧
    minimaxFuel unitGame 7 false () () (-1) = .error .recursionError :=
  ⟨by norm_num, no_invalid_argument_check.1 7 false (-1) (by norm_num)⟩

/-! ### C3: sample-tree merging is a shallow dict update -/

/-- C3 fails on the code: in `ceGame`, the two `breadth = 2` samples of the
only top-level move share the second-ply key `1` and diverge at the third
ply (first sample key `2`, second sample key `3`), yet the merged moveTree
keeps only the second sample's continuation: `dict.update` replaces the
subtree stored under the shared key instead of recursively unioning it, so
key `2` appears nowhere in the final tree. -/
theorem stochastic_shared_key_overwritten :
    stochasticHelper ceGame ceChooser 10 true 1 () 2 0 =
      .ok (3, .node [(1, .node [(2, .node [])])], 2) ∧
    stochasticHelper ceGame ceChooser 10 true 1 () 2 2 =
      .ok (4, .node [(1, .node [(3, .node [])])], 4) ∧
    stochastic ceGame ceChooser false 0 () 3 2 10 0 =
      .ok (.fin (7 / 2), [0],
           .node [(0, .node [(1, .node [(3, .node [])])])], 4) ∧
    (MoveTree.node [(0, .node [(1, .node [(3, .node [])])])]).hasKeyAnywhere 2
      = false := by
  refine ⟨?_, ?_, ?_, ?_⟩ <;>
    norm_num [stochastic, stLoop, sampleLoop, stochasticHelper, ceGame,
      ceChooser, ceMoves, ceDest, dictHas, dictSet, dictGetD, dictUpdate,
      betterB, XQ.fin, XQ.ninf, MoveTree.entries, MoveTree.hasKeyAnywhere,
      hasKeyEntries]

/-! ### Association-list (Python dict) lemmas -/

theorem dictHas_iff_mem_keys (d : List (ℕ × MoveTree)) (k : ℕ) :
    dictHas d k = true ↔ k ∈ d.map Prod.fst := by
  induction d with
  | nil => simp [dictHas]
  | cons p rest ih =>
    by_cases hp : p.1 = k
    · simp [dictHas, hp]
    · simp [dictHas, hp, ih, eq_comm]
      exact fun hk => absurd hk.symm hp

theorem dictGet?_set_self (d : List (ℕ × MoveTree)) (k : ℕ) (v : MoveTree) :
    dictGet? (dictSet d k v) k = some v := by
  induction d with
  | nil => simp [dictSet, dictGet?]
  | cons p rest ih =>
    by_cases hp : p.1 = k <;> simp [dictSet, dictGet?, hp, ih]

theorem dictGet?_set_ne (d : List (ℕ × MoveTree)) (k : ℕ) (v : MoveTree)
    (k' : ℕ) (h : k' ≠ k) :
    dictGet? (dictSet d k v) k' = dictGet? d k' := by
  induction d with
  | nil => simp [dictSet, dictGet?, Ne.symm h]
  | cons p rest ih =>
    by_cases hp : p.1 = k
    · simp [dictSet, dictGet?, hp, Ne.symm h, h]
    · by_cases hpk : p.1 = k' <;> simp [dictSet, dictGet?, hp, hpk, ih, h]

theorem dictGet?_update_absent (d other : List (ℕ × MoveTree)) (k' : ℕ)
    (h : dictHas other k' = false) :
    dictGet? (dictUpdate d other) k' = dictGet? d k' := by
  induction other generalizing d with
  | nil => simp [dictUpdate]
  | cons p rest ih =>
    simp [dictHas] at h
    obtain ⟨h1, h2⟩ := h
    rw [dictUpdate, List.foldl_cons]
    rw [show (List.foldl (fun acc q => dictSet acc q.1 q.2) (dictSet d p.1 p.2)
      rest) = dictUpdate (dictSet d p.1 p.2) rest from rfl]
    rw [ih _ (by simpa [dictHas] using h2)]
    exact dictGet?_set_ne d p.1 p.2 k' (fun hh => h1 hh.symm)

theorem dictGet?_update_mem (d other : List (ℕ × MoveTree)) (k' : ℕ)
    (hnd : (other.map Prod.fst).Nodup) (h : dictHas other k' = true) :
    dictGet? (dictUpdate d other) k' = dictGet? other k' := by
  induction other generalizing d with
  | nil => simp [dictHas] at h
  | cons p rest ih =>
    rw [dictUpdate, List.foldl_cons]
    rw [show (List.foldl (fun acc q => dictSet acc q.1 q.2) (dictSet d p.1 p.2)
      rest) = dictUpdate (dictSet d p.1 p.2) rest from rfl]
    simp at hnd
    by_cases hpk : p.1 = k'
    · have hra : dictHas rest k' = false := by
        by_contra hc
        simp at hc
        have hmem : k' ∈ rest.map Prod.fst := (dictHas_iff_mem_keys rest k').mp hc
        rw [← hpk] at hmem
        simp at hmem
        obtain ⟨x, hx⟩ := hmem
        exact hnd.1 x hx
      rw [dictGet?_update_absent _ _ _ hra, ← hpk]
      rw [dictGet?_set_self d p.1 p.2]
      simp [dictGet?]
    · have hr : dictHas rest k' = true := by simpa [dictHas, hpk] using h
      rw [ih _ hnd.2 hr]
      simp [dictGet?, hpk]

/-- C3 amended: each sample's subtree is folded into the move's entry by a
one-level `dict.update`: keys of the new sample are unioned into the stored
entry, but at a key both trees share, the new sample's whole subtree
*replaces* the stored one (no recursive merge), while keys absent from the
new sample keep their stored subtrees. -/
theorem stochastic_merge_shallow_update (G : Game)
    (chooser : ℕ → List G.Move → Option G.Move) (newSide : Bool)
    (newBoard : G.Board) (newFlags : G.Flags) (depth : ℤ) (fuel : ℕ) (k : ℕ)
    (i c : ℕ) (s : ℚ) (t : List (ℕ × MoveTree)) (v : ℚ) (t1 : MoveTree)
    (c' : ℕ)
    (hrun : stochasticHelper G chooser fuel newSide newBoard newFlags depth c
      = .ok (v, t1, c'))
    (hnd : (t1.entries.map Prod.fst).Nodup) :
    sampleLoop G chooser newSide newBoard newFlags depth fuel k (i + 1) c s t =
      sampleLoop G chooser newSide newBoard newFlags depth fuel k i c' (s + v)
        (if dictHas t k then
          dictSet t k (.node (dictUpdate (dictGetD t k) t1.entries))
         else dictSet t k t1) ∧
    (∀ (d0 : List (ℕ × MoveTree)) (k' : ℕ), dictHas t1.entries k' = true →
      dictGet? (dictUpdate d0 t1.entries) k' = dictGet? t1.entries k') ∧
    (∀ (d0 : List (ℕ × MoveTree)) (k' : ℕ), dictHas t1.entries k' = false →
      dictGet? (dictUpdate d0 t1.entries) k' = dictGet? d0 k') := by
  refine ⟨?_, ?_, ?_⟩
  · rw [sampleLoop, hrun]
  · intro d0 k' hk
    exact dictGet?_update_mem d0 t1.entries k' hnd hk
  · intro d0 k' hk
    exact dictGet?_update_absent d0 t1.entries k' hk

theorem stochastic_merge_shallow_update_witness :
    stochasticHelper ceGame ceChooser 10 true 1 () 2 2 =
      .ok (4, .node [(1, .node [(3, .node [])])], 4) ∧
    ((MoveTree.node [(1, .node [(3, .node [])])]).entries.map
      Prod.fst).Nodup ∧
    sampleLoop ceGame ceChooser true 1 () 2 10 0 1 2 3
        [(0, .node [(1, .node [(2, .node [])])])] =
      sampleLoop ceGame ceChooser true 1 () 2 10 0 0 4 (3 + 4)
        (if dictHas [(0, .node [(1, .node [(2, .node [])])])] 0 then
          dictSet [(0, .node [(1, .node [(2, .node [])])])] 0
            (.node (dictUpdate
              (dictGetD [(0, .node [(1, .node [(2, .node [])])])] 0)
              (MoveTree.node [(1, .node [(3, .node [])])]).entries))
         else dictSet [(0, .node [(1, .node [(2, .node [])])])] 0
            (.node [(1, .node [(3, .node [])])])) := by
  have h1 : stochasticHelper ceGame ceChooser 10 true 1 () 2 2 =
      .ok (4, .node [(1, .node [(3, .node [])])], 4) := by
    norm_num [stochasticHelper, ceGame, ceChooser, ceMoves, ceDest]
  have h2 : ((MoveTree.node [(1, .node [(3, .node [])])]).entries.map
      Prod.fst).Nodup := by simp [MoveTree.entries]
  exact ⟨h1, h2, (stochastic_merge_shallow_update ceGame ceChooser true 1 ()
    2 10 0 0 2 3 [(0, .node [(1, .node [(2, .node [])])])] 4
    (.node [(1, .node [(3, .node [])])]) 4 h1 h2).1⟩

/-! ### The strict-improvement selection loop -/

theorem getD_irrel {α : Type} (l : List α) (j : ℕ) (d1 d2 : α)
    (h : j < l.length) : l.getD j d1 = l.getD j d2 := by
  induction l generalizing j with
  | nil => simp at h
  | cons a r ih =>
    cases j with
    | zero => simp
    | succ j => simp only [List.getD_cons_succ]; exact ih j (by simpa using h)

theorem getD_mem {α : Type} (l : List α) (j : ℕ) (d : α)
    (h : j < l.length) : l.getD j d ∈ l := by
  induction l generalizing j with
  | nil => simp at h
  | cons a r ih =>
    cases j with
    | zero => simp
    | succ j =>
      simp only [List.getD_cons_succ]
      exact List.mem_cons_of_mem a (ih j (by simpa using h))

theorem selSpec_nil (G : Game) (side : Bool) (h0 : XQ) (bm0 : G.Move)
    (bl0 : List G.Move) : SelSpec G side h0 bm0 bl0 [] [] h0 bm0 bl0 :=
  ⟨rfl, Or.inl ⟨rfl, by simp⟩⟩

theorem selSpec_cons_update (G : Game) (side : Bool) (h0 v : XQ)
    (bm0 mv : G.Move) (bl0 l1 : List G.Move) (t1 : MoveTree)
    (mvs : List G.Move) (rs : List (SR G)) (H : XQ) (BM : G.Move)
    (BL : List G.Move) (hbetter : betterB side h0 v = true)
    (hrec : SelSpec G side v mv l1 mvs rs H BM BL) :
    SelSpec G side h0 bm0 bl0 (mv :: mvs) ((v, l1, t1) :: rs) H BM BL := by
  obtain ⟨hlen, hcases⟩ := hrec
  refine ⟨by simpa using hlen, Or.inr ?_⟩
  rcases hcases with ⟨heq, hall⟩ | ⟨j, hj, hH, hBM, hBL, hbeat, hext, hfirst⟩
  · -- nothing in the tail beat `v`: index 0 wins
    simp only [Prod.mk.injEq] at heq
    obtain ⟨h1, h2, h3⟩ := heq
    subst h1; subst h2; subst h3
    refine ⟨0, by simp, by simp [dfltSR], fun dm => by simp, by simp [dfltSR],
      hbetter, ?_, by simp⟩
    intro i hi
    cases i with
    | zero => simpa [dfltSR] using betterB_self side H
    | succ i =>
      simp only [List.getD_cons_succ]
      exact hall _ (getD_mem rs i (dfltSR G) (by simpa using hi))
  · refine ⟨j + 1, by simpa using hj, by simpa using hH,
      fun dm => ?_, by simpa using hBL, betterB_trans hbetter hbeat, ?_, ?_⟩
    · simp only [List.getD_cons_succ]
      rw [hBM mv]
      exact getD_irrel mvs j mv dm (by omega)
    · intro i hi
      cases i with
      | zero => simpa [dfltSR] using betterB_asymm hbeat
      | succ i =>
        simp only [List.getD_cons_succ]
        exact hext i (by simpa using hi)
    · intro i hi
      cases i with
      | zero => simpa [dfltSR] using hbeat
      | succ i =>
        simp only [List.getD_cons_succ]
        exact hfirst i (by omega)

theorem selSpec_cons_keep (G : Game) (side : Bool) (h0 v : XQ)
    (bm0 mv : G.Move) (bl0 l1 : List G.Move) (t1 : MoveTree)
    (mvs : List G.Move) (rs : List (SR G)) (H : XQ) (BM : G.Move)
    (BL : List G.Move) (hbetter : betterB side h0 v = false)
    (hrec : SelSpec G side h0 bm0 bl0 mvs rs H BM BL) :
    SelSpec G side h0 bm0 bl0 (mv :: mvs) ((v, l1, t1) :: rs) H BM BL := by
  obtain ⟨hlen, hcases⟩ := hrec
  refine ⟨by simpa using hlen, ?_⟩
  rcases hcases with ⟨heq, hall⟩ | ⟨j, hj, hH, hBM, hBL, hbeat, hext, hfirst⟩
  · refine Or.inl ⟨heq, ?_⟩
    intro x hx
    rcases List.mem_cons.mp hx with hx | hx
    · rw [hx]; exact hbetter
    · exact hall x hx
  · refine Or.inr ⟨j + 1, by simpa using hj, by simpa using hH,
      fun dm => by simp only [List.getD_cons_succ]; exact hBM dm,
      by simpa using hBL, hbeat, ?_, ?_⟩
    · intro i hi
      cases i with
      | zero => simpa [dfltSR] using betterB_keep_trans hbeat hbetter
      | succ i =>
        simp only [List.getD_cons_succ]
        exact hext i (by simpa using hi)
    · intro i hi
      cases i with
      | zero => simpa [dfltSR] using betterB_beat_old hbeat hbetter
      | succ i =>
        simp only [List.getD_cons_succ]
        exact hfirst i (by omega)

theorem mmLoop_sel (G : Game)
    (child : Bool → G.Board → G.Flags → Except Err (SR G)) (side : Bool)
    (board : G.Board) (flags : G.Flags) :
    ∀ (ms : List G.Move) (h0 : XQ) (bm0 : G.Move) (bl0 : List G.Move)
      (t0 : List (ℕ × MoveTree)) (H : XQ) (BM : G.Move) (BL : List G.Move)
      (T : List (ℕ × MoveTree)),
      mmLoop G child side board flags ms (h0, bm0, bl0, t0) =
        .ok (H, BM, BL, T) →
      ∃ rs : List (SR G),
        childResults G child side board flags ms = .ok rs ∧
        SelSpec G side h0 bm0 bl0 ms rs H BM BL := by
  intro ms
  induction ms with
  | nil =>
    intro h0 bm0 bl0 t0 H BM BL T hrun
    simp [mmLoop] at hrun
    obtain ⟨h1, h2, h3, _⟩ := hrun
    subst h1; subst h2; subst h3
    exact ⟨[], rfl, selSpec_nil G side h0 bm0 bl0⟩
  | cons mv rest ih =>
    intro h0 bm0 bl0 t0 H BM BL T hrun
    rw [mmLoop] at hrun
    match hmk : G.makeMove side board flags mv with
    | (newSide, newBoard, newFlags) =>
      simp only [hmk] at hrun
      match hch : child newSide newBoard newFlags with
      | .error e => simp [hch] at hrun
      | .ok (v, l1, t1) =>
        simp only [hch] at hrun
        by_cases hb : betterB side h0 v
        · rw [if_pos hb] at hrun
          obtain ⟨rs', hcr', hsel'⟩ := ih v mv l1 _ H BM BL T hrun
          refine ⟨(v, l1, t1) :: rs', ?_, ?_⟩
          · rw [childResults, hmk]
            simp only [hch, hcr']
          · exact selSpec_cons_update G side h0 v bm0 mv bl0 l1 t1 rest rs'
              H BM BL hb hsel'
        · rw [if_neg hb] at hrun
          obtain ⟨rs', hcr', hsel'⟩ := ih h0 bm0 bl0 _ H BM BL T hrun
          refine ⟨(v, l1, t1) :: rs', ?_, ?_⟩
          · rw [childResults, hmk]
            simp only [hch, hcr']
          · exact selSpec_cons_keep G side h0 v bm0 mv bl0 l1 t1 rest rs'
              H BM BL (by simpa using hb) hsel'

theorem childResults_mem (G : Game)
    (child : Bool → G.Board → G.Flags → Except Err (SR G)) (side : Bool)
    (board : G.Board) (flags : G.Flags) :
    ∀ (ms : List G.Move) (rs : List (SR G)),
      childResults G child side board flags ms = .ok rs →
      ∀ x ∈ rs, ∃ mv ∈ ms, ∃ newSide newBoard newFlags,
        G.makeMove side board flags mv = (newSide, newBoard, newFlags) ∧
        child newSide newBoard newFlags = .ok x := by
  intro ms
  induction ms with
  | nil =>
    intro rs hok x hx
    rw [childResults] at hok
    simp at hok
    subst hok
    simp at hx
  | cons mv rest ih =>
    intro rs hok x hx
    rw [childResults] at hok
    match hmk : G.makeMove side board flags mv with
    | (newSide, newBoard, newFlags) =>
      simp only [hmk] at hok
      match hch : child newSide newBoard newFlags with
      | .error e => simp [hch] at hok
      | .ok y =>
        simp only [hch] at hok
        match hrest : childResults G child side board flags rest with
        | .error e => simp [hrest] at hok
        | .ok rs' =>
          simp only [hrest] at hok
          simp at hok
          subst hok
          rcases List.mem_cons.mp hx with hx | hx
          · exact ⟨mv, List.mem_cons_self mv rest, newSide, newBoard,
              newFlags, hmk, by simpa [hx] using hch⟩
          · obtain ⟨mv', hmv', ns, nb, nf, hmk', hc⟩ := ih rs' hrest x hx
            exact ⟨mv', List.mem_cons_of_mem mv hmv', ns, nb, nf, hmk', hc⟩

theorem minimax_ok_fin (G : Game) :
    ∀ (d : ℕ) (side : Bool) (board : G.Board) (flags : G.Flags) (v : XQ)
      (ml : List G.Move) (mt : MoveTree),
      minimax G side board flags d = .ok (v, ml, mt) →
      ∃ q : ℚ, v = XQ.fin q := by
  intro d
  induction d with
  | zero =>
    intro side board flags v ml mt h
    rw [minimax] at h
    simp at h
    exact ⟨G.evaluate board, h.1.symm⟩
  | succ d ih =>
    intro side board flags v ml mt h
    rw [minimax] at h
    match hms : G.generateMoves side board flags with
    | [] => simp [hms] at h
    | m0 :: rest =>
      simp only [hms] at h
      match hloop : mmLoop G (fun s b f => minimax G s b f d) side board flags
          (m0 :: rest) ((if side then XQ.pinf else XQ.ninf), m0, [], []) with
      | .error e => simp [hloop] at h
      | .ok (H, BM, BL, T) =>
        simp only [hloop] at h
        simp at h
        obtain ⟨hv, hml, hmt⟩ := h
        obtain ⟨rs, hcr, hlen, hcases⟩ := mmLoop_sel G _ side board flags
          (m0 :: rest) _ m0 [] [] H BM BL T hloop
        have hrs : 0 < rs.length := by simp [hlen]
        rcases hcases with ⟨heq, hall⟩ | ⟨j, hj, hH, _, _, _, _, _⟩
        · exfalso
          have hmem := getD_mem rs 0 (dfltSR G) hrs
          rcases hgx : rs.getD 0 (dfltSR G) with ⟨xv, xml, xmt⟩
          rw [hgx] at hmem
          obtain ⟨mv, _, ns, nb, nf, _, hcall⟩ :=
            childResults_mem G _ side board flags (m0 :: rest) rs hcr _ hmem
          obtain ⟨q, hq⟩ := ih ns nb nf xv xml xmt hcall
          have hfalse := hall _ hmem
          simp only [hq] at hfalse
          rw [betterB_ninf side q] at hfalse
          exact Bool.true_eq_false.mp hfalse
        · have hmem := getD_mem rs j (dfltSR G) hj
          rcases hgx : rs.getD j (dfltSR G) with ⟨xv, xml, xmt⟩
          rw [hgx] at hmem hH
          obtain ⟨mv, _, ns, nb, nf, _, hcall⟩ :=
            childResults_mem G _ side board flags (m0 :: rest) rs hcr _ hmem
          obtain ⟨q, hq⟩ := ih ns nb nf xv xml xmt hcall
          exact ⟨q, by rw [← hv, hH, hq]⟩


theorem abLoop_sel (G : Game)
    (child : Bool → G.Board → G.Flags → XQ → XQ → Except Err (SR G))
    (side : Bool) (board : G.Board) (flags : G.Flags) :
    ∀ (ms : List G.Move) (alpha beta : XQ) (h0 : XQ) (bm0 : G.Move)
      (bl0 : List G.Move) (t0 : List (ℕ × MoveTree)) (H : XQ) (BM : G.Move)
      (BL : List G.Move) (T : List (ℕ × MoveTree)),
      abLoop G child side board flags ms alpha beta (h0, bm0, bl0, t0) =
        .ok (H, BM, BL, T) →
      ∃ (mvs : List G.Move) (rs : List (SR G)),
        mvs <+: ms ∧ (mvs = [] ↔ ms = []) ∧
        (∀ i, i < rs.length → ∃ (a b : XQ) (ns : Bool) (nb : G.Board)
          (nf : G.Flags),
          G.makeMove side board flags (mvs.getD i bm0) = (ns, nb, nf) ∧
          child ns nb nf a b = .ok (rs.getD i (dfltSR G))) ∧
        SelSpec G side h0 bm0 bl0 mvs rs H BM BL := by
  intro ms
  induction ms with
  | nil =>
    intro alpha beta h0 bm0 bl0 t0 H BM BL T hrun
    simp [abLoop] at hrun
    obtain ⟨h1, h2, h3, _⟩ := hrun
    subst h1; subst h2; subst h3
    exact ⟨[], [], List.prefix_refl [], by simp, by simp,
      selSpec_nil G side h0 bm0 bl0⟩
  | cons mv rest ih =>
    intro alpha beta h0 bm0 bl0 t0 H BM BL T hrun
    rw [abLoop] at hrun
    match hmk : G.makeMove side board flags mv with
    | (newSide, newBoard, newFlags) =>
      simp only [hmk] at hrun
      match hch : child newSide newBoard newFlags alpha beta with
      | .error e => simp [hch] at hrun
      | .ok (v, l1, t1) =>
        simp only [hch] at hrun
        by_cases hb : betterB side h0 v
        · simp only [if_pos hb] at hrun
          by_cases hcut : cutB side alpha beta v = true
          · simp only [hcut, if_pos rfl] at hrun
            simp at hrun
            obtain ⟨h1, h2, h3, _⟩ := hrun
            subst h1; subst h2; subst h3
            refine ⟨[mv], [(v, l1, t1)], by simp, by simp, ?_, ?_⟩
            · intro i hi
              simp at hi
              subst hi
              exact ⟨alpha, beta, newSide, newBoard, newFlags, by simpa using hmk,
                by simpa [dfltSR] using hch⟩
            · exact selSpec_cons_update G side h0 v bm0 mv bl0 l1 t1 [] []
                v mv l1 hb (selSpec_nil G side v mv l1)
          · simp only [Bool.not_eq_true] at hcut
            simp only [hcut, Bool.false_eq_true, if_false] at hrun
            obtain ⟨mvs', rs', hpre', hiff', hlink', hsel'⟩ :=
              ih (nextBounds side alpha beta v).1 (nextBounds side alpha beta v).2
                v mv l1 _ H BM BL T hrun
            refine ⟨mv :: mvs', (v, l1, t1) :: rs',
              List.cons_prefix_cons.mpr ⟨rfl, hpre'⟩, by simp, ?_, ?_⟩
            · intro i hi
              cases i with
              | zero =>
                exact ⟨alpha, beta, newSide, newBoard, newFlags,
                  by simpa using hmk, by simpa [dfltSR] using hch⟩
              | succ i =>
                obtain ⟨a, b, ns, nb, nf, hmk', hc'⟩ :=
                  hlink' i (by simpa using hi)
                refine ⟨a, b, ns, nb, nf, ?_, by simpa using hc'⟩
                simp only [List.getD_cons_succ]
                have hilen : i < mvs'.length := by
                  have hl := hsel'.1
                  simp at hi
                  omega
                rw [getD_irrel mvs' i bm0 mv hilen]
                exact hmk'
            · exact selSpec_cons_update G side h0 v bm0 mv bl0 l1 t1 mvs'
                rs' H BM BL hb hsel'
        · simp only [Bool.not_eq_true] at hb
          simp only [hb, Bool.false_eq_true, if_false] at hrun
          by_cases hcut : cutB side alpha beta h0 = true
          · simp only [hcut, if_pos rfl] at hrun
            simp at hrun
            obtain ⟨h1, h2, h3, _⟩ := hrun
            subst h1; subst h2; subst h3
            refine ⟨[mv], [(v, l1, t1)], by simp, by simp, ?_, ?_⟩
            · intro i hi
              simp at hi
              subst hi
              exact ⟨alpha, beta, newSide, newBoard, newFlags, by simpa using hmk,
                by simpa [dfltSR] using hch⟩
            · exact selSpec_cons_keep G side h0 v bm0 mv bl0 l1 t1 [] []
                h0 bm0 bl0 hb (selSpec_nil G side h0 bm0 bl0)
          · simp only [Bool.not_eq_true] at hcut
            simp only [hcut, Bool.false_eq_true, if_false] at hrun
            obtain ⟨mvs', rs', hpre', hiff', hlink', hsel'⟩ :=
              ih (nextBounds side alpha beta h0).1 (nextBounds side alpha beta h0).2
                h0 bm0 bl0 _ H BM BL T hrun
            refine ⟨mv :: mvs', (v, l1, t1) :: rs',
              List.cons_prefix_cons.mpr ⟨rfl, hpre'⟩, by simp, ?_, ?_⟩
            · intro i hi
              cases i with
              | zero =>
                exact ⟨alpha, beta, newSide, newBoard, newFlags,
                  by simpa using hmk, by simpa [dfltSR] using hch⟩
              | succ i =>
                obtain ⟨a, b, ns, nb, nf, hmk', hc'⟩ :=
                  hlink' i (by simpa using hi)
                refine ⟨a, b, ns, nb, nf, by simpa using hmk', by simpa using hc'⟩
            · exact selSpec_cons_keep G side h0 v bm0 mv bl0 l1 t1 mvs'
                rs' H BM BL hb hsel'

theorem stLoop_sel (G : Game) (chooser : ℕ → List G.Move → Option G.Move)
    (side : Bool) (board : G.Board) (flags : G.Flags) (depth breadth : ℤ)
    (fuel : ℕ) :
    ∀ (ms : List G.Move) (h0 : XQ) (bm0 : G.Move)
      (t0 : List (ℕ × MoveTree)) (c0 : ℕ) (H : XQ) (BM : G.Move)
      (T : List (ℕ × MoveTree)) (C : ℕ),
      stLoop G chooser side board flags depth breadth fuel ms (h0, bm0) t0 c0
        = .ok (H, BM, T, C) →
      ∃ rs : List (SR G),
        (∀ i, i < rs.length → ∃ (cS : ℕ) (tS : List (ℕ × MoveTree)) (s : ℚ)
          (tE : List (ℕ × MoveTree)) (c1 : ℕ),
          sampleLoop G chooser
            (G.makeMove side board flags (ms.getD i bm0)).1
            (G.makeMove side board flags (ms.getD i bm0)).2.1
            (G.makeMove side board flags (ms.getD i bm0)).2.2
            (depth - 1) fuel (G.encode (ms.getD i bm0)) breadth.toNat cS 0 tS
            = .ok (s, tE, c1) ∧
          (rs.getD i (dfltSR G)).1 = XQ.fin (s / (breadth : ℚ))) ∧
        SelSpec G side h0 bm0 [] ms rs H BM [] := by
  intro ms
  induction ms with
  | nil =>
    intro h0 bm0 t0 c0 H BM T C hrun
    simp [stLoop] at hrun
    obtain ⟨h1, h2, _, _⟩ := hrun
    subst h1; subst h2
    exact ⟨[], by simp, selSpec_nil G side h0 bm0 []⟩
  | cons mv rest ih =>
    intro h0 bm0 t0 c0 H BM T C hrun
    rw [stLoop] at hrun
    match hmk : G.makeMove side board flags mv with
    | (newSide, newBoard, newFlags) =>
      simp only [hmk] at hrun
      match hsl : sampleLoop G chooser newSide newBoard newFlags (depth - 1)
          fuel (G.encode mv) breadth.toNat c0 0 t0 with
      | .error e => simp [hsl] at hrun
      | .ok (s, t', c') =>
        simp only [hsl] at hrun
        by_cases hbz : breadth = 0
        · rw [if_pos hbz] at hrun
          simp at hrun
        · rw [if_neg hbz] at hrun
          by_cases hb : betterB side h0 (XQ.fin (s / (breadth : ℚ)))
          · rw [if_pos hb] at hrun
            obtain ⟨rs', hlink', hsel'⟩ := ih _ mv t' c' H BM T C hrun
            refine ⟨(XQ.fin (s / (breadth : ℚ)), [], .node []) :: rs', ?_, ?_⟩
            · intro i hi
              cases i with
              | zero =>
                refine ⟨c0, t0, s, t', c', ?_, by simp [dfltSR]⟩
                simp only [List.getD_cons_zero, hmk]
                exact hsl
              | succ i =>
                obtain ⟨cS, tS, s1, tE, c1, hr1, hr2⟩ :=
                  hlink' i (by simpa using hi)
                have hilen : i < rest.length := by
                  have hl := hsel'.1
                  simp at hi
                  omega
                refine ⟨cS, tS, s1, tE, c1, ?_, by simpa using hr2⟩
                simp only [List.getD_cons_succ]
                rw [getD_irrel rest i bm0 mv hilen]
                exact hr1
            · exact selSpec_cons_update G side h0 (XQ.fin (s / (breadth : ℚ)))
                bm0 mv [] [] (.node []) rest rs' H BM [] hb hsel'
          · rw [if_neg hb] at hrun
            obtain ⟨rs', hlink', hsel'⟩ := ih h0 bm0 t' c' H BM T C hrun
            refine ⟨(XQ.fin (s / (breadth : ℚ)), [], .node []) :: rs', ?_, ?_⟩
            · intro i hi
              cases i with
              | zero =>
                refine ⟨c0, t0, s, t', c', ?_, by simp [dfltSR]⟩
                simp only [List.getD_cons_zero, hmk]
                exact hsl
              | succ i =>
                obtain ⟨cS, tS, s1, tE, c1, hr1, hr2⟩ :=
                  hlink' i (by simpa using hi)
                refine ⟨cS, tS, s1, tE, c1, by simpa using hr1, by simpa using hr2⟩
            · exact selSpec_cons_keep G side h0 (XQ.fin (s / (breadth : ℚ)))
                bm0 mv [] [] (.node []) rest rs' H BM []
                (by simpa using hb) hsel'

theorem getD_map_fst (G : Game) (rs : List (SR G)) (i : ℕ)
    (h : i < rs.length) :
    (rs.map (fun x => x.1)).getD i XQ.ninf = (rs.getD i (dfltSR G)).1 := by
  induction rs generalizing i with
  | nil => simp at h
  | cons x r ih =>
    cases i with
    | zero => simp
    | succ i => simpa using ih i (by simpa using h)

theorem alphabeta_ok_fin (G : Game) :
    ∀ (d : ℕ) (side : Bool) (board : G.Board) (flags : G.Flags)
      (alpha beta : XQ) (v : XQ) (ml : List G.Move) (mt : MoveTree),
      alphabeta G side board flags d alpha beta = .ok (v, ml, mt) →
      ∃ q : ℚ, v = XQ.fin q := by
  intro d
  induction d with
  | zero =>
    intro side board flags alpha beta v ml mt h
    rw [alphabeta] at h
    simp at h
    exact ⟨G.evaluate board, h.1.symm⟩
  | succ d ih =>
    intro side board flags alpha beta v ml mt h
    rw [alphabeta] at h
    match hms : G.generateMoves side board flags with
    | [] => simp [hms] at h
    | m0 :: rest =>
      simp only [hms] at h
      match hloop : abLoop G (fun s b f a bt => alphabeta G s b f d a bt) side
          board flags (m0 :: rest) alpha beta
          ((if side then XQ.pinf else XQ.ninf), m0, [], []) with
      | .error e => simp [hloop] at h
      | .ok (H, BM, BL, T) =>
        simp only [hloop] at h
        simp at h
        obtain ⟨hv, hml, hmt⟩ := h
        obtain ⟨mvs, rs, hpre, hiff, hlink, hlen, hcases⟩ :=
          abLoop_sel G _ side board flags (m0 :: rest) alpha beta _ m0 [] []
            H BM BL T hloop
        have hmvs : mvs ≠ [] := by
          intro hc
          exact (List.cons_ne_nil m0 rest) (hiff.mp hc)
        have hrs : 0 < rs.length := by
          rw [hlen]
          exact List.length_pos.mpr hmvs
        rcases hcases with ⟨heq, hall⟩ | ⟨j, hj, hH, _, _, _, _, _⟩
        · exfalso
          rcases hgx : rs.getD 0 (dfltSR G) with ⟨xv, xml, xmt⟩
          obtain ⟨a, b, ns, nb, nf, hmk', hcall⟩ := hlink 0 hrs
          rw [hgx] at hcall
          obtain ⟨q, hq⟩ := ih ns nb nf a b xv xml xmt hcall
          have hfalse := hall _ (getD_mem rs 0 (dfltSR G) hrs)
          rw [hgx] at hfalse
          simp only [hq] at hfalse
          rw [betterB_ninf side q] at hfalse
          exact Bool.true_eq_false.mp hfalse
        · rcases hgx : rs.getD j (dfltSR G) with ⟨xv, xml, xmt⟩
          rw [hgx] at hH
          obtain ⟨a, b, ns, nb, nf, hmk', hcall⟩ := hlink j hj
          rw [hgx] at hcall
          obtain ⟨q, hq⟩ := ih ns nb nf a b xv xml xmt hcall
          exact ⟨q, by rw [← hv, hH, hq]⟩

/-! ### C5: strict improvement only, first achiever kept -/

/-- C5: in all three algorithms the running best is replaced only on strict
improvement (`>` for `side = false`, `<` for `side = true`), so the move
reported best is the first one, in generation order, achieving the extremum
of the processed values: for `minimax` and `stochastic` over the values of
all generated moves, for `alphabeta` over the values of the initial segment
of moves it visits before the cutoff. -/
theorem strict_improvement_first_achiever (G : Game) :
    (∀ (side : Bool) (board : G.Board) (flags : G.Flags) (d : ℕ) (v : XQ)
      (ml : List G.Move) (mt : MoveTree),
      minimax G side board flags (d + 1) = .ok (v, ml, mt) →
      ∃ (rs : List (SR G)) (j : ℕ),
        childResults G (fun s b f => minimax G s b f d) side board flags
          (G.generateMoves side board flags) = .ok rs ∧
        IsFirstSel side (rs.map (fun x => x.1)) j v ∧
        (∀ dm : G.Move,
          ml.head? = some ((G.generateMoves side board flags).getD j dm)) ∧
        ml.tail = (rs.getD j (dfltSR G)).2.1) ∧
    (∀ (side : Bool) (board : G.Board) (flags : G.Flags) (d : ℕ)
      (alpha beta : XQ) (v : XQ) (ml : List G.Move) (mt : MoveTree),
      alphabeta G side board flags (d + 1) alpha beta = .ok (v, ml, mt) →
      ∃ (mvs : List G.Move) (rs : List (SR G)) (j : ℕ),
        mvs <+: G.generateMoves side board flags ∧ rs.length = mvs.length ∧
        (∀ (dm : G.Move) (i : ℕ), i < rs.length →
          ∃ (a b : XQ) (ns : Bool) (nb : G.Board) (nf : G.Flags),
          G.makeMove side board flags (mvs.getD i dm) = (ns, nb, nf) ∧
          alphabeta G ns nb nf d a b = .ok (rs.getD i (dfltSR G))) ∧
        IsFirstSel side (rs.map (fun x => x.1)) j v ∧
        (∀ dm : G.Move, ml.head? = some (mvs.getD j dm)) ∧
        ml.tail = (rs.getD j (dfltSR G)).2.1) ∧
    (∀ (side : Bool) (board : G.Board) (flags : G.Flags)
      (depth breadth : ℤ) (fuel c : ℕ)
      (chooser : ℕ → List G.Move → Option G.Move) (v : XQ)
      (ml : List G.Move) (mt : MoveTree) (c' : ℕ),
      stochastic G chooser side board flags depth breadth fuel c =
        .ok (v, ml, mt, c') →
      ∃ (rs : List (SR G)) (j : ℕ),
        (∀ (dm : G.Move) (i : ℕ), i < rs.length →
          ∃ (cS : ℕ) (tS : List (ℕ × MoveTree)) (s : ℚ)
            (tE : List (ℕ × MoveTree)) (c1 : ℕ),
          sampleLoop G chooser
            (G.makeMove side board flags
              ((G.generateMoves side board flags).getD i dm)).1
            (G.makeMove side board flags
              ((G.generateMoves side board flags).getD i dm)).2.1
            (G.makeMove side board flags
              ((G.generateMoves side board flags).getD i dm)).2.2
            (depth - 1) fuel
            (G.encode ((G.generateMoves side board flags).getD i dm))
            breadth.toNat cS 0 tS = .ok (s, tE, c1) ∧
          (rs.getD i (dfltSR G)).1 = XQ.fin (s / (breadth : ℚ))) ∧
        IsFirstSel side (rs.map (fun x => x.1)) j v ∧
        (∀ dm : G.Move,
          ml = [(G.generateMoves side board flags).getD j dm])) := by
  refine ⟨?_, ?_, ?_⟩
  · -- minimax
    intro side board flags d v ml mt hrun
    rw [minimax] at hrun
    match hms : G.generateMoves side board flags with
    | [] => simp [hms] at hrun
    | m0 :: rest =>
      simp only [hms] at hrun
      match hloop : mmLoop G (fun s b f => minimax G s b f d) side board flags
          (m0 :: rest) ((if side then XQ.pinf else XQ.ninf), m0, [], []) with
      | .error e => simp [hloop] at hrun
      | .ok (H, BM, BL, T) =>
        simp only [hloop] at hrun
        simp at hrun
        obtain ⟨hv, hml, hmt⟩ := hrun
        obtain ⟨rs, hcr, hlen, hcases⟩ := mmLoop_sel G _ side board flags
          (m0 :: rest) _ m0 [] [] H BM BL T hloop
        have hrs : 0 < rs.length := by simp [hlen]
        rcases hcases with ⟨heq, hall⟩ | ⟨j, hj, hH, hBM, hBL, hbeat, hext, hfirst⟩
        · exfalso
          have hmem := getD_mem rs 0 (dfltSR G) hrs
          rcases hgx : rs.getD 0 (dfltSR G) with ⟨xv, xml, xmt⟩
          rw [hgx] at hmem
          obtain ⟨mv, _, ns, nb, nf, _, hcall⟩ :=
            childResults_mem G _ side board flags (m0 :: rest) rs hcr _ hmem
          obtain ⟨q, hq⟩ := minimax_ok_fin G d ns nb nf xv xml xmt hcall
          have hfalse := hall _ hmem
          simp only [hq] at hfalse
          rw [betterB_ninf side q] at hfalse
          exact Bool.true_eq_false.mp hfalse
        · refine ⟨rs, j, hcr, ?_, ?_, ?_⟩
          · refine ⟨by simpa using hj, ?_, ?_, ?_⟩
            · rw [getD_map_fst G rs j hj, ← hH, hv]
            · intro i hi
              rw [getD_map_fst G rs i (by simpa using hi), ← hv]
              exact hext i (by simpa using hi)
            · intro i hi
              rw [getD_map_fst G rs i (by omega), ← hv]
              exact hfirst i hi
          · intro dm
            rw [← hml]
            simp only [List.head?_cons]
            rw [hBM m0]
            exact congrArg some (getD_irrel (m0 :: rest) j m0 dm (by
              have := hlen; simp at this; omega))
          · rw [← hml]
            simpa using hBL
  · -- alphabeta
    intro side board flags d alpha beta v ml mt hrun
    rw [alphabeta] at hrun
    match hms : G.generateMoves side board flags with
    | [] => simp [hms] at hrun
    | m0 :: rest =>
      simp only [hms] at hrun
      match hloop : abLoop G (fun s b f a bt => alphabeta G s b f d a bt) side
          board flags (m0 :: rest) alpha beta
          ((if side then XQ.pinf else XQ.ninf), m0, [], []) with
      | .error e => simp [hloop] at hrun
      | .ok (H, BM, BL, T) =>
        simp only [hloop] at hrun
        simp at hrun
        obtain ⟨hv, hml, hmt⟩ := hrun
        obtain ⟨mvs, rs, hpre, hiff, hlink, hlen, hcases⟩ :=
          abLoop_sel G _ side board flags (m0 :: rest) alpha beta _ m0 [] []
            H BM BL T hloop
        have hmvs : mvs ≠ [] := fun hc => (List.cons_ne_nil m0 rest) (hiff.mp hc)
        have hrs : 0 < rs.length := by
          rw [hlen]; exact List.length_pos.mpr hmvs
        have hlink' : ∀ (dm : G.Move) (i : ℕ), i < rs.length →
            ∃ (a b : XQ) (ns : Bool) (nb : G.Board) (nf : G.Flags),
            G.makeMove side board flags (mvs.getD i dm) = (ns, nb, nf) ∧
            alphabeta G ns nb nf d a b = .ok (rs.getD i (dfltSR G)) := by
          intro dm i hi
          obtain ⟨a, b, ns, nb, nf, hmk', hc'⟩ := hlink i hi
          exact ⟨a, b, ns, nb, nf, by
            rw [getD_irrel mvs i dm m0 (by omega)]; exact hmk', hc'⟩
        rcases hcases with ⟨heq, hall⟩ | ⟨j, hj, hH, hBM, hBL, hbeat, hext, hfirst⟩
        · exfalso
          have hmem := getD_mem rs 0 (dfltSR G) hrs
          rcases hgx : rs.getD 0 (dfltSR G) with ⟨xv, xml, xmt⟩
          rw [hgx] at hmem
          obtain ⟨a, b, ns, nb, nf, hmk', hcall⟩ := hlink 0 hrs
          rw [hgx] at hcall
          obtain ⟨q, hq⟩ := alphabeta_ok_fin G d ns nb nf a b xv xml xmt hcall
          have hfalse := hall _ hmem
          simp only [hq] at hfalse
          rw [betterB_ninf side q] at hfalse
          exact Bool.true_eq_false.mp hfalse
        · refine ⟨mvs, rs, j, hpre, hlen, hlink', ?_, ?_, ?_⟩
          · refine ⟨by simpa using hj, ?_, ?_, ?_⟩
            · rw [getD_map_fst G rs j hj, ← hH, hv]
            · intro i hi
              rw [getD_map_fst G rs i (by simpa using hi), ← hv]
              exact hext i (by simpa using hi)
            · intro i hi
              rw [getD_map_fst G rs i (by omega), ← hv]
              exact hfirst i hi
          · intro dm
            rw [← hml]
            simp only [List.head?_cons]
            rw [hBM m0]
            exact congrArg some (getD_irrel mvs j m0 dm (by omega))
          · rw [← hml]
            simpa using hBL
  · -- stochastic
    intro side board flags depth breadth fuel c chooser v ml mt c' hrun
    rw [stochastic] at hrun
    match hms : G.generateMoves side board flags with
    | [] => simp [hms] at hrun
    | m0 :: rest =>
      simp only [hms] at hrun
      match hloop : stLoop G chooser side board flags depth breadth fuel
          (m0 :: rest) ((if side then XQ.pinf else XQ.ninf), m0) [] c with
      | .error e => simp [hloop] at hrun
      | .ok (H, BM, T, C) =>
        simp only [hloop] at hrun
        simp at hrun
        obtain ⟨hv, hml, hmt, hC⟩ := hrun
        obtain ⟨rs, hlink, hlen, hcases⟩ := stLoop_sel G chooser side board
          flags depth breadth fuel (m0 :: rest) _ m0 [] c H BM T C hloop
        have hrs : 0 < rs.length := by simp [hlen]
        have hlink' : ∀ (dm : G.Move) (i : ℕ), i < rs.length →
            ∃ (cS : ℕ) (tS : List (ℕ × MoveTree)) (s : ℚ)
              (tE : List (ℕ × MoveTree)) (c1 : ℕ),
            sampleLoop G chooser
              (G.makeMove side board flags ((m0 :: rest).getD i dm)).1
              (G.makeMove side board flags ((m0 :: rest).getD i dm)).2.1
              (G.makeMove side board flags ((m0 :: rest).getD i dm)).2.2
              (depth - 1) fuel (G.encode ((m0 :: rest).getD i dm))
              breadth.toNat cS 0 tS = .ok (s, tE, c1) ∧
            (rs.getD i (dfltSR G)).1 = XQ.fin (s / (breadth : ℚ)) := by
          intro dm i hi
          obtain ⟨cS, tS, s, tE, c1, hr1, hr2⟩ := hlink i hi
          rw [getD_irrel (m0 :: rest) i m0 dm (by
            have := hlen; simp at this; omega)] at hr1
          exact ⟨cS, tS, s, tE, c1, hr1, hr2⟩
        rcases hcases with ⟨heq, hall⟩ | ⟨j, hj, hH, hBM, hBL, hbeat, hext, hfirst⟩
        · exfalso
          have hmem := getD_mem rs 0 (dfltSR G) hrs
          obtain ⟨cS, tS, s, tE, c1, _, hr2⟩ := hlink 0 hrs
          have hfalse := hall _ hmem
          simp only [hr2] at hfalse
          rw [betterB_ninf side (s / (breadth : ℚ))] at hfalse
          exact Bool.true_eq_false.mp hfalse
        · refine ⟨rs, j, hlink', ?_, ?_⟩
          · refine ⟨by simpa using hj, ?_, ?_, ?_⟩
            · rw [getD_map_fst G rs j hj, ← hH, hv]
            · intro i hi
              rw [getD_map_fst G rs i (by simpa using hi), ← hv]
              exact hext i (by simpa using hi)
            · intro i hi
              rw [getD_map_fst G rs i (by omega), ← hv]
              exact hfirst i hi
          · intro dm
            rw [← hml, hBM m0]
            exact congrArg (fun z => [z])
              (getD_irrel (m0 :: rest) j m0 dm (by
                have := hlen; simp at this; omega))

/-! ### C8: stochastic reports one move and its sampled average -/

/-- C8: whenever `stochastic` returns, its moveList is exactly the
one-element list holding the chosen top-level move (no recursive
continuation), and its value is that move's average of the `breadth`
sampled values (`sum / breadth` for the sum produced by the sample loop
run for that move); moreover a successful return forces `breadth ≠ 0`. -/
theorem stochastic_single_move_average (G : Game)
    (chooser : ℕ → List G.Move → Option G.Move) (side : Bool)
    (board : G.Board) (flags : G.Flags) (depth breadth : ℤ) (fuel c : ℕ)
    (v : XQ) (ml : List G.Move) (mt : MoveTree) (c' : ℕ)
    (hrun : stochastic G chooser side board flags depth breadth fuel c =
      .ok (v, ml, mt, c')) :
    breadth ≠ 0 ∧
    ∃ mv, mv ∈ G.generateMoves side board flags ∧ ml = [mv] ∧
      ∃ (cS : ℕ) (tS : List (ℕ × MoveTree)) (s : ℚ)
        (tE : List (ℕ × MoveTree)) (c1 : ℕ),
        sampleLoop G chooser (G.makeMove side board flags mv).1
          (G.makeMove side board flags mv).2.1
          (G.makeMove side board flags mv).2.2
          (depth - 1) fuel (G.encode mv) breadth.toNat cS 0 tS =
          .ok (s, tE, c1) ∧
        v = XQ.fin (s / (breadth : ℚ)) := by
  rw [stochastic] at hrun
  match hms : G.generateMoves side board flags with
  | [] => simp [hms] at hrun
  | m0 :: rest =>
    simp only [hms] at hrun
    match hloop : stLoop G chooser side board flags depth breadth fuel
        (m0 :: rest) ((if side then XQ.pinf else XQ.ninf), m0) [] c with
    | .error e => simp [hloop] at hrun
    | .ok (H, BM, T, C) =>
      simp only [hloop] at hrun
      simp at hrun
      obtain ⟨hv, hml, hmt, hC⟩ := hrun
      have hbz : breadth ≠ 0 := by
        intro hb
        rw [stLoop] at hloop
        match hmk : G.makeMove side board flags m0 with
        | (ns, nb, nf) =>
          simp only [hmk] at hloop
          rw [hb] at hloop
          simp [sampleLoop] at hloop
      refine ⟨hbz, ?_⟩
      obtain ⟨rs, hlink, hlen, hcases⟩ := stLoop_sel G chooser side board
        flags depth breadth fuel (m0 :: rest) _ m0 [] c H BM T C hloop
      have hrs : 0 < rs.length := by simp [hlen]
      rcases hcases with ⟨heq, hall⟩ | ⟨j, hj, hH, hBM, hBL, hbeat, hext, hfirst⟩
      · exfalso
        have hmem := getD_mem rs 0 (dfltSR G) hrs
        obtain ⟨cS, tS, s, tE, c1, _, hr2⟩ := hlink 0 hrs
        have hfalse := hall _ hmem
        simp only [hr2] at hfalse
        rw [betterB_ninf side (s / (breadth : ℚ))] at hfalse
        exact Bool.true_eq_false.mp hfalse
      · obtain ⟨cS, tS, s, tE, c1, hr1, hr2⟩ := hlink j hj
        refine ⟨(m0 :: rest).getD j m0, ?_, ?_, cS, tS, s, tE, c1, ?_, ?_⟩
        · exact getD_mem (m0 :: rest) j m0 (by
            have := hlen; simp at this ⊢; omega)
        · rw [← hml, hBM m0]
        · exact hr1
        · rw [← hv, hH, hr2]

theorem strict_improvement_first_achiever_witness :
    minimax toyGame false 0 () (1 + 1) =
      .ok (XQ.fin 0, [1, 0], .node [(2, .node [(1, .node [])])]) ∧
    (∃ (rs : List (SR toyGame)) (j : ℕ),
      childResults toyGame (fun s b f => minimax toyGame s b f 1) false 0 ()
        (toyGame.generateMoves false 0 ()) = .ok rs ∧
      IsFirstSel false (rs.map (fun x => x.1)) j (XQ.fin 0) ∧
      (∀ dm : ℤ,
        ([1, 0] : List ℤ).head? =
          some ((toyGame.generateMoves false 0 ()).getD j dm)) ∧
      ([1, 0] : List ℤ).tail = (rs.getD j (dfltSR toyGame)).2.1) := by
  have hrun : minimax toyGame false 0 () (1 + 1) =
      .ok (XQ.fin 0, [1, 0], .node [(2, .node [(1, .node [])])]) := by
    norm_num [minimax, mmLoop, toyGame, betterB, XQ.fin, XQ.ninf, XQ.pinf,
      dictSet]
    rw [if_pos (show (0 : XQ) < ⊤ by decide)]
    norm_num
    rw [if_pos (show (⊥ : XQ) < (0 : XQ) by decide)]
  exact ⟨hrun, (strict_improvement_first_achiever toyGame).1 false 0 () 1
    (XQ.fin 0) [1, 0] (.node [(2, .node [(1, .node [])])]) hrun⟩

theorem stochastic_single_move_average_witness :
    stochastic toyGame (fun _ l => l.get? 0) false 0 () 2 1 10 0 =
      .ok (XQ.fin 0, [1], .node [(2, .node [(1, .node [])])], 1) ∧
    ((1 : ℤ) ≠ 0 ∧
     ∃ mv, mv ∈ toyGame.generateMoves false 0 () ∧ ([1] : List ℤ) = [mv] ∧
      ∃ (cS : ℕ) (tS : List (ℕ × MoveTree)) (s : ℚ)
        (tE : List (ℕ × MoveTree)) (c1 : ℕ),
        sampleLoop toyGame (fun _ l => l.get? 0)
          (toyGame.makeMove false 0 () mv).1
          (toyGame.makeMove false 0 () mv).2.1
          (toyGame.makeMove false 0 () mv).2.2
          (2 - 1) 10 (toyGame.encode mv) (1 : ℤ).toNat cS 0 tS =
          .ok (s, tE, c1) ∧
        XQ.fin 0 = XQ.fin (s / ((1 : ℤ) : ℚ))) := by
  have hrun : stochastic toyGame (fun _ l => l.get? 0) false 0 () 2 1 10 0 =
      .ok (XQ.fin 0, [1], .node [(2, .node [(1, .node [])])], 1) := by
    norm_num [stochastic, stLoop, sampleLoop, stochasticHelper, toyGame,
      betterB, XQ.fin, XQ.ninf, XQ.pinf, dictSet, dictHas]
    rw [if_pos (show (⊥ : XQ) < (0 : XQ) by decide)]
  exact ⟨hrun, stochastic_single_move_average toyGame (fun _ l => l.get? 0)
    false 0 () 2 1 10 0 (XQ.fin 0) [1] (.node [(2, .node [(1, .node [])])]) 1
    hrun⟩

/-! ### C7: pruning never grows the tree -/

theorem dictHas_append (a b : List (ℕ × MoveTree)) (k : ℕ) :
    dictHas (a ++ b) k = (dictHas a k || dictHas b k) := by
  induction a with
  | nil => simp [dictHas]
  | cons p r ih => by_cases hp : p.1 = k <;> simp [dictHas, hp, ih]

theorem dictSet_fresh_append (t : List (ℕ × MoveTree)) (k : ℕ) (v : MoveTree)
    (h : dictHas t k = false) : dictSet t k v = t ++ [(k, v)] := by
  induction t with
  | nil => simp [dictSet]
  | cons p r ih =>
    simp [dictHas] at h
    simp [dictSet, h.1, ih (by simpa [dictHas] using h.2)]

theorem prefix_getD {α : Type} (mvs ms : List α) (h : mvs <+: ms) :
    ∀ (i : ℕ) (dm : α), i < mvs.length → mvs.getD i dm = ms.getD i dm := by
  obtain ⟨tl, htl⟩ := h
  subst htl
  intro i dm hi
  induction mvs generalizing i with
  | nil => simp at hi
  | cons a r ih =>
    cases i with
    | zero => simp
    | succ i => simpa using ih i (by simpa using hi)

theorem countEntries_le_of_pointwise :
    ∀ (ps' ps : List (ℕ × MoveTree)), ps'.length ≤ ps.length →
      (∀ i, i < ps'.length →
        (ps'.getD i (0, .node [])).2.count ≤ (ps.getD i (0, .node [])).2.count) →
      countEntries ps' ≤ countEntries ps := by
  intro ps'
  induction ps' with
  | nil =>
    intro ps _ _
    induction ps with
    | nil => simp
    | cons p r ih =>
      rw [countEntries]
      omega
  | cons p' r' ih =>
    intro ps hlen hpt
    match ps with
    | [] => simp at hlen
    | p :: r =>
      rw [countEntries, countEntries]
      rcases p' with ⟨k', t'⟩
      rcases p with ⟨k, t⟩
      have h0 := hpt 0 (by simp)
      simp only [List.getD_cons_zero] at h0
      have hrest := ih r (by simpa using hlen) (fun i hi => by
        have := hpt (i + 1) (by simpa using hi)
        simpa using this)
      have e1 : ((k', t') : ℕ × MoveTree).2.count = t'.count := rfl
      have e2 : ((k, t) : ℕ × MoveTree).2.count = t.count := rfl
      omega

theorem mmLoop_tree (G : Game)
    (child : Bool → G.Board → G.Flags → Except Err (SR G)) (side : Bool)
    (board : G.Board) (flags : G.Flags) :
    ∀ (ms : List G.Move) (h0 : XQ) (bm0 : G.Move) (bl0 : List G.Move)
      (t0 : List (ℕ × MoveTree)) (H : XQ) (BM : G.Move) (BL : List G.Move)
      (T : List (ℕ × MoveTree)),
      mmLoop G child side board flags ms (h0, bm0, bl0, t0) =
        .ok (H, BM, BL, T) →
      (∀ mv ∈ ms, dictHas t0 (G.encode mv) = false) →
      (ms.map G.encode).Nodup →
      ∃ ps : List (ℕ × MoveTree), T = t0 ++ ps ∧ ps.length = ms.length ∧
        ∀ (dm : G.Move) (i : ℕ), i < ps.length →
          ∃ (ns : Bool) (nb : G.Board) (nf : G.Flags) (vL : XQ)
            (lL : List G.Move),
            G.makeMove side board flags (ms.getD i dm) = (ns, nb, nf) ∧
            child ns nb nf = .ok (vL, lL, (ps.getD i (0, .node [])).2) := by
  intro ms
  induction ms with
  | nil =>
    intro h0 bm0 bl0 t0 H BM BL T hrun _ _
    simp [mmLoop] at hrun
    exact ⟨[], by simp [hrun.2.2.2.symm], by simp, by simp⟩
  | cons mv rest ih =>
    intro h0 bm0 bl0 t0 H BM BL T hrun hfresh hnd
    rw [mmLoop] at hrun
    match hmk : G.makeMove side board flags mv with
    | (newSide, newBoard, newFlags) =>
      simp only [hmk] at hrun
      match hch : child newSide newBoard newFlags with
      | .error e => simp [hch] at hrun
      | .ok (v, l1, t1) =>
        simp only [hch] at hrun
        have hset : dictSet t0 (G.encode mv) t1 = t0 ++ [(G.encode mv, t1)] :=
          dictSet_fresh_append t0 (G.encode mv) t1
            (hfresh mv (List.mem_cons_self mv rest))
        have hfresh' : ∀ mv' ∈ rest,
            dictHas (t0 ++ [(G.encode mv, t1)]) (G.encode mv') = false := by
          intro mv' hmv'
          rw [dictHas_append]
          have h1 := hfresh mv' (List.mem_cons_of_mem mv hmv')
          have h2 : G.encode mv ≠ G.encode mv' := by
            intro hc
            have : G.encode mv ∈ rest.map G.encode :=
              hc ▸ List.mem_map_of_mem G.encode hmv'
            simp at hnd
            exact hnd.1 mv' hmv' hc.symm
          simp [h1, dictHas, h2]
        have hnd' : (rest.map G.encode).Nodup := by
          simp at hnd
          exact hnd.2
        have hfinish : ∀ (ps' : List (ℕ × MoveTree)),
            T = (t0 ++ [(G.encode mv, t1)]) ++ ps' →
            ps'.length = rest.length →
            (∀ (dm : G.Move) (i : ℕ), i < ps'.length →
              ∃ (ns : Bool) (nb : G.Board) (nf : G.Flags) (vL : XQ)
                (lL : List G.Move),
                G.makeMove side board flags (rest.getD i dm) = (ns, nb, nf) ∧
                child ns nb nf = .ok (vL, lL, (ps'.getD i (0, .node [])).2)) →
            ∃ ps : List (ℕ × MoveTree),
              T = t0 ++ ps ∧ ps.length = (mv :: rest).length ∧
              ∀ (dm : G.Move) (i : ℕ), i < ps.length →
                ∃ (ns : Bool) (nb : G.Board) (nf : G.Flags) (vL : XQ)
                  (lL : List G.Move),
                  G.makeMove side board flags ((mv :: rest).getD i dm) =
                    (ns, nb, nf) ∧
                  child ns nb nf =
                    .ok (vL, lL, (ps.getD i (0, .node [])).2) := by
          intro ps' hT hlen hlink
          refine ⟨(G.encode mv, t1) :: ps', by simpa using hT, by simpa using hlen, ?_⟩
          intro dm i hi
          cases i with
          | zero =>
            exact ⟨newSide, newBoard, newFlags, v, l1, by simpa using hmk,
              by simpa using hch⟩
          | succ i =>
            obtain ⟨ns, nb, nf, vL, lL, hmk', hch'⟩ :=
              hlink dm i (by simpa using hi)
            exact ⟨ns, nb, nf, vL, lL, by simpa using hmk', by simpa using hch'⟩
        by_cases hb : betterB side h0 v
        · rw [if_pos hb, hset] at hrun
          obtain ⟨ps', hT, hlen, hlink⟩ := ih v mv l1 _ H BM BL T hrun
            hfresh' hnd'
          exact hfinish ps' hT hlen hlink
        · rw [if_neg hb, hset] at hrun
          obtain ⟨ps', hT, hlen, hlink⟩ := ih h0 bm0 bl0 _ H BM BL T hrun
            hfresh' hnd'
          exact hfinish ps' hT hlen hlink

theorem abLoop_tree (G : Game)
    (child : Bool → G.Board → G.Flags → XQ → XQ → Except Err (SR G))
    (side : Bool) (board : G.Board) (flags : G.Flags) :
    ∀ (ms : List G.Move) (alpha beta : XQ) (h0 : XQ) (bm0 : G.Move)
      (bl0 : List G.Move) (t0 : List (ℕ × MoveTree)) (H : XQ) (BM : G.Move)
      (BL : List G.Move) (T : List (ℕ × MoveTree)),
      abLoop G child side board flags ms alpha beta (h0, bm0, bl0, t0) =
        .ok (H, BM, BL, T) →
      (∀ mv ∈ ms, dictHas t0 (G.encode mv) = false) →
      (ms.map G.encode).Nodup →
      ∃ (mvs : List G.Move) (ps : List (ℕ × MoveTree)),
        mvs <+: ms ∧ T = t0 ++ ps ∧ ps.length = mvs.length ∧
        ∀ (dm : G.Move) (i : ℕ), i < ps.length →
          ∃ (a b : XQ) (ns : Bool) (nb : G.Board) (nf : G.Flags) (vL : XQ)
            (lL : List G.Move),
            G.makeMove side board flags (mvs.getD i dm) = (ns, nb, nf) ∧
            child ns nb nf a b = .ok (vL, lL, (ps.getD i (0, .node [])).2) := by
  intro ms
  induction ms with
  | nil =>
    intro alpha beta h0 bm0 bl0 t0 H BM BL T hrun _ _
    simp [abLoop] at hrun
    exact ⟨[], [], List.prefix_refl [], by simp [hrun.2.2.2.symm], by simp,
      by simp⟩
  | cons mv rest ih =>
    intro alpha beta h0 bm0 bl0 t0 H BM BL T hrun hfresh hnd
    rw [abLoop] at hrun
    match hmk : G.makeMove side board flags mv with
    | (newSide, newBoard, newFlags) =>
      simp only [hmk] at hrun
      match hch : child newSide newBoard newFlags alpha beta with
      | .error e => simp [hch] at hrun
      | .ok (v, l1, t1) =>
        simp only [hch] at hrun
        have hset : dictSet t0 (G.encode mv) t1 = t0 ++ [(G.encode mv, t1)] :=
          dictSet_fresh_append t0 (G.encode mv) t1
            (hfresh mv (List.mem_cons_self mv rest))
        have hfresh' : ∀ mv' ∈ rest,
            dictHas (t0 ++ [(G.encode mv, t1)]) (G.encode mv') = false := by
          intro mv' hmv'
          rw [dictHas_append]
          have h1 := hfresh mv' (List.mem_cons_of_mem mv hmv')
          have h2 : G.encode mv ≠ G.encode mv' := by
            intro hc
            simp at hnd
            exact hnd.1 mv' hmv' hc.symm
          simp [h1, dictHas, h2]
        have hnd' : (rest.map G.encode).Nodup := by
          simp at hnd
          exact hnd.2
        have hsingle : ∀ (hT : T = dictSet t0 (G.encode mv) t1),
            ∃ (mvs : List G.Move) (ps : List (ℕ × MoveTree)),
              mvs <+: mv :: rest ∧ T = t0 ++ ps ∧ ps.length = mvs.length ∧
              ∀ (dm : G.Move) (i : ℕ), i < ps.length →
                ∃ (a b : XQ) (ns : Bool) (nb : G.Board) (nf : G.Flags)
                  (vL : XQ) (lL : List G.Move),
                  G.makeMove side board flags (mvs.getD i dm) = (ns, nb, nf) ∧
                  child ns nb nf a b =
                    .ok (vL, lL, (ps.getD i (0, .node [])).2) := by
          intro hT
          refine ⟨[mv], [(G.encode mv, t1)], by simp, by rw [hT, hset], by simp, ?_⟩
          intro dm i hi
          simp at hi
          subst hi
          exact ⟨alpha, beta, newSide, newBoard, newFlags, v, l1,
            by simpa using hmk, by simpa using hch⟩
        have hfinish : ∀ (mvs' : List G.Move) (ps' : List (ℕ × MoveTree)),
            mvs' <+: rest →
            T = (t0 ++ [(G.encode mv, t1)]) ++ ps' →
            ps'.length = mvs'.length →
            (∀ (dm : G.Move) (i : ℕ), i < ps'.length →
              ∃ (a b : XQ) (ns : Bool) (nb : G.Board) (nf : G.Flags)
                (vL : XQ) (lL : List G.Move),
                G.makeMove side board flags (mvs'.getD i dm) = (ns, nb, nf) ∧
                child ns nb nf a b =
                  .ok (vL, lL, (ps'.getD i (0, .node [])).2)) →
            ∃ (mvs : List G.Move) (ps : List (ℕ × MoveTree)),
              mvs <+: mv :: rest ∧ T = t0 ++ ps ∧ ps.length = mvs.length ∧
              ∀ (dm : G.Move) (i : ℕ), i < ps.length →
                ∃ (a b : XQ) (ns : Bool) (nb : G.Board) (nf : G.Flags)
                  (vL : XQ) (lL : List G.Move),
                  G.makeMove side board flags (mvs.getD i dm) = (ns, nb, nf) ∧
                  child ns nb nf a b =
                    .ok (vL, lL, (ps.getD i (0, .node [])).2) := by
          intro mvs' ps' hpre hT hlen hlink
          refine ⟨mv :: mvs', (G.encode mv, t1) :: ps',
            List.cons_prefix_cons.mpr ⟨rfl, hpre⟩, by simpa using hT,
            by simpa using hlen, ?_⟩
          intro dm i hi
          cases i with
          | zero =>
            exact ⟨alpha, beta, newSide, newBoard, newFlags, v, l1,
              by simpa using hmk, by simpa using hch⟩
          | succ i =>
            obtain ⟨a, b, ns, nb, nf, vL, lL, hmk', hch'⟩ :=
              hlink dm i (by simpa using hi)
            exact ⟨a, b, ns, nb, nf, vL, lL, by simpa using hmk',
              by simpa using hch'⟩
        by_cases hb : betterB side h0 v
        · simp only [if_pos hb] at hrun
          by_cases hcut : cutB side alpha beta v = true
          · simp only [hcut, if_pos rfl] at hrun
            simp at hrun
            exact hsingle hrun.2.2.2.symm
          · simp only [Bool.not_eq_true] at hcut
            simp only [hcut, Bool.false_eq_true, if_false] at hrun
            rw [hset] at hrun
            obtain ⟨mvs', ps', hpre, hT, hlen, hlink⟩ :=
              ih (nextBounds side alpha beta v).1 (nextBounds side alpha beta v).2
                v mv l1 _ H BM BL T hrun hfresh' hnd'
            exact hfinish mvs' ps' hpre hT hlen hlink
        · simp only [Bool.not_eq_true] at hb
          simp only [hb, Bool.false_eq_true, if_false] at hrun
          by_cases hcut : cutB side alpha beta h0 = true
          · simp only [hcut, if_pos rfl] at hrun
            simp at hrun
            exact hsingle hrun.2.2.2.symm
          · simp only [Bool.not_eq_true] at hcut
            simp only [hcut, Bool.false_eq_true, if_false] at hrun
            rw [hset] at hrun
            obtain ⟨mvs', ps', hpre, hT, hlen, hlink⟩ :=
              ih (nextBounds side alpha beta h0).1 (nextBounds side alpha beta h0).2
                h0 bm0 bl0 _ H BM BL T hrun hfresh' hnd'
            exact hfinish mvs' ps' hpre hT hlen hlink

theorem ab_tree_le_mm_aux (G : Game)
    (hkeys : ∀ (s : Bool) (b : G.Board) (f : G.Flags),
      ((G.generateMoves s b f).map G.encode).Nodup) :
    ∀ (d : ℕ) (side : Bool) (board : G.Board) (flags : G.Flags)
      (alpha beta : XQ) (v v' : XQ) (ml ml' : List G.Move)
      (mt mt' : MoveTree),
      minimax G side board flags d = .ok (v, ml, mt) →
      alphabeta G side board flags d alpha beta = .ok (v', ml', mt') →
      mt'.count ≤ mt.count := by
  intro d
  induction d with
  | zero =>
    intro side board flags alpha beta v v' ml ml' mt mt' hmm hab
    rw [minimax] at hmm
    rw [alphabeta] at hab
    simp at hmm hab
    rw [← hmm.2.2, ← hab.2.2]
  | succ d ih =>
    intro side board flags alpha beta v v' ml ml' mt mt' hmm hab
    rw [minimax] at hmm
    rw [alphabeta] at hab
    match hms : G.generateMoves side board flags with
    | [] => simp [hms] at hmm
    | m0 :: rest =>
      simp only [hms] at hmm hab
      match hloopM : mmLoop G (fun s b f => minimax G s b f d) side board flags
          (m0 :: rest) ((if side then XQ.pinf else XQ.ninf), m0, [], []) with
      | .error e => simp [hloopM] at hmm
      | .ok (Hm, BMm, BLm, Tm) =>
        simp only [hloopM] at hmm
        simp at hmm
        match hloopA : abLoop G (fun s b f a bt => alphabeta G s b f d a bt)
            side board flags (m0 :: rest) alpha beta
            ((if side then XQ.pinf else XQ.ninf), m0, [], []) with
        | .error e => simp [hloopA] at hab
        | .ok (Ha, BMa, BLa, Ta) =>
          simp only [hloopA] at hab
          simp at hab
          have hnd : ((m0 :: rest).map G.encode).Nodup := by
            have := hkeys side board flags
            rwa [hms] at this
          obtain ⟨ps, hTm, hlenM, hlinkM⟩ := mmLoop_tree G _ side board flags
            (m0 :: rest) _ m0 [] [] Hm BMm BLm Tm hloopM
            (by intro mv _; simp [dictHas]) hnd
          obtain ⟨mvs, ps', hpre, hTa, hlenA, hlinkA⟩ := abLoop_tree G _ side
            board flags (m0 :: rest) alpha beta _ m0 [] [] Ha BMa BLa Ta
            hloopA (by intro mv _; simp [dictHas]) hnd
          rw [← hmm.2.2, ← hab.2.2]
          rw [MoveTree.count, MoveTree.count, hTm, hTa]
          simp only [List.nil_append]
          refine countEntries_le_of_pointwise ps' ps ?_ ?_
          · rw [hlenA, hlenM]
            exact hpre.length_le
          · intro i hi
            obtain ⟨a, b, ns, nb, nf, vL, lL, hmkA, hchA⟩ := hlinkA m0 i hi
            have hiM : i < ps.length := by
              rw [hlenM]
              have := hpre.length_le
              omega
            obtain ⟨ns', nb', nf', vM, lM, hmkM, hchM⟩ := hlinkM m0 i hiM
            rw [prefix_getD mvs (m0 :: rest) hpre i m0 (by omega)] at hmkA
            rw [hmkA] at hmkM
            injection hmkM with e1 erest
            injection erest with e2 e3
            subst e1; subst e2; subst e3
            exact ih ns nb nf a b vM vL lM lL _ _ hchM hchA

/-- C7: for identical side, board, flags and depth, and move keys that are
collision-free per position (the `encode` collaborator contract), the total
node count of the moveTree returned by `alphabeta` with its default bounds
is at most the node count of the moveTree returned by `minimax`. -/
theorem alphabeta_tree_le_minimax_tree (G : Game)
    (hkeys : ∀ (s : Bool) (b : G.Board) (f : G.Flags),
      ((G.generateMoves s b f).map G.encode).Nodup)
    (side : Bool) (board : G.Board) (flags : G.Flags) (d : ℕ)
    (v v' : XQ) (ml ml' : List G.Move) (mt mt' : MoveTree)
    (hmm : minimax G side board flags d = .ok (v, ml, mt))
    (hab : alphabeta G side board flags d XQ.ninf XQ.pinf =
      .ok (v', ml', mt')) :
    mt'.count ≤ mt.count :=
  ab_tree_le_mm_aux G hkeys d side board flags XQ.ninf XQ.pinf v v' ml ml'
    mt mt' hmm hab

theorem alphabeta_tree_le_minimax_tree_witness :
    (∀ (s : Bool) (n : ℤ) (f : Unit),
      ((toyGame.generateMoves s n f).map toyGame.encode).Nodup) ∧
    minimax toyGame false 0 () 2 =
      .ok (XQ.fin 0, [1, 0], .node [(2, .node [(1, .node [])])]) ∧
    alphabeta toyGame false 0 () 2 XQ.ninf XQ.pinf =
      .ok (XQ.fin 0, [1, 0], .node [(2, .node [(1, .node [])])]) ∧
    (MoveTree.node [(2, .node [(1, .node [])])]).count ≤
      (MoveTree.node [(2, .node [(1, .node [])])]).count := by
  have hkeys : ∀ (s : Bool) (n : ℤ) (f : Unit),
      ((toyGame.generateMoves s n f).map toyGame.encode).Nodup := by
    intro s n f
    by_cases h : 3 ≤ |n| <;> cases s <;> simp [toyGame, h]
  have hmm : minimax toyGame false 0 () 2 =
      .ok (XQ.fin 0, [1, 0], .node [(2, .node [(1, .node [])])]) := by
    norm_num [minimax, mmLoop, toyGame, betterB, XQ.fin, XQ.ninf, XQ.pinf,
      dictSet]
    rw [if_pos (show (0 : XQ) < ⊤ by decide)]
    norm_num
    rw [if_pos (show (⊥ : XQ) < (0 : XQ) by decide)]
  have hab : alphabeta toyGame false 0 () 2 XQ.ninf XQ.pinf =
      .ok (XQ.fin 0, [1, 0], .node [(2, .node [(1, .node [])])]) := by
    have d1 : ((⊥ : XQ) < 0) = True := eq_true (by decide)
    have d2 : ((0 : XQ) < ⊤) = True := eq_true (by decide)
    have d3 : (min XQ.pinf (0 : XQ) ≤ XQ.ninf) = False := eq_false (by decide)
    have d4 : ((XQ.pinf : XQ) ≤ max XQ.ninf (0 : XQ)) = False :=
      eq_false (by decide)
    norm_num [alphabeta, abLoop, toyGame, betterB, XQ.fin, XQ.ninf, XQ.pinf,
      dictSet, cutB, nextBounds, d1, d2, d3, d4]
  exact ⟨hkeys, hmm, hab, alphabeta_tree_le_minimax_tree toyGame hkeys false
    0 () 2 (XQ.fin 0) (XQ.fin 0) [1, 0] [1, 0] _ _ hmm hab⟩

/-! ### C1: fail-soft alpha-beta agrees with minimax on value and move list -/

theorem cutB_false (a b h : XQ) : cutB false a b h = decide (b ≤ max a h) := rfl

theorem cutB_true (a b h : XQ) : cutB true a b h = decide (min b h ≤ a) := rfl

theorem nextBounds_false (a b h : XQ) : nextBounds false a b h = (max a h, b) := rfl

theorem nextBounds_true (a b h : XQ) : nextBounds true a b h = (a, min b h) := rfl

theorem mmLoop_mono_max (G : Game)
    (childM : Bool → G.Board → G.Flags → Except Err (SR G))
    (board : G.Board) (flags : G.Flags) :
    ∀ (ms : List G.Move) (h : XQ) (bm : G.Move) (bl : List G.Move)
      (t : List (ℕ × MoveTree)) (Hm : XQ) (BMm : G.Move) (BLm : List G.Move)
      (Tm : List (ℕ × MoveTree)),
      mmLoop G childM false board flags ms (h, bm, bl, t) =
        .ok (Hm, BMm, BLm, Tm) → h ≤ Hm := by
  intro ms
  induction ms with
  | nil =>
    intro h bm bl t Hm BMm BLm Tm hrun
    simp [mmLoop] at hrun
    exact le_of_eq hrun.1
  | cons mv rest ih =>
    intro h bm bl t Hm BMm BLm Tm hrun
    rw [mmLoop] at hrun
    match hmk : G.makeMove false board flags mv with
    | (ns, nb, nf) =>
      simp only [hmk] at hrun
      match hch : childM ns nb nf with
      | .error e => simp [hch] at hrun
      | .ok (w, wl, wt) =>
        simp only [hch] at hrun
        by_cases hb : betterB false h w
        · rw [if_pos hb] at hrun
          have hw := ih w mv wl _ Hm BMm BLm Tm hrun
          simp [betterB] at hb
          exact le_trans (le_of_lt hb) hw
        · rw [if_neg hb] at hrun
          exact ih h bm bl _ Hm BMm BLm Tm hrun

theorem mmLoop_mono_min (G : Game)
    (childM : Bool → G.Board → G.Flags → Except Err (SR G))
    (board : G.Board) (flags : G.Flags) :
    ∀ (ms : List G.Move) (h : XQ) (bm : G.Move) (bl : List G.Move)
      (t : List (ℕ × MoveTree)) (Hm : XQ) (BMm : G.Move) (BLm : List G.Move)
      (Tm : List (ℕ × MoveTree)),
      mmLoop G childM true board flags ms (h, bm, bl, t) =
        .ok (Hm, BMm, BLm, Tm) → Hm ≤ h := by
  intro ms
  induction ms with
  | nil =>
    intro h bm bl t Hm BMm BLm Tm hrun
    simp [mmLoop] at hrun
    exact le_of_eq hrun.1.symm
  | cons mv rest ih =>
    intro h bm bl t Hm BMm BLm Tm hrun
    rw [mmLoop] at hrun
    match hmk : G.makeMove true board flags mv with
    | (ns, nb, nf) =>
      simp only [hmk] at hrun
      match hch : childM ns nb nf with
      | .error e => simp [hch] at hrun
      | .ok (w, wl, wt) =>
        simp only [hch] at hrun
        by_cases hb : betterB true h w
        · rw [if_pos hb] at hrun
          have hw := ih w mv wl _ Hm BMm BLm Tm hrun
          simp [betterB] at hb
          exact le_trans hw (le_of_lt hb)
        · rw [if_neg hb] at hrun
          exact ih h bm bl _ Hm BMm BLm Tm hrun


theorem abLoopKM_max (G : Game)
    (childM : Bool → G.Board → G.Flags → Except Err (SR G))
    (childA : Bool → G.Board → G.Flags → XQ → XQ → Except Err (SR G))
    (board : G.Board) (flags : G.Flags)
    (hkm : ∀ (s : Bool) (b : G.Board) (f : G.Flags) (w : XQ)
      (wl : List G.Move) (wt : MoveTree), childM s b f = .ok (w, wl, wt) →
      ∀ (a2 b2 : XQ), a2 < b2 →
      ∃ (r : XQ) (rl : List G.Move) (rt : MoveTree),
        childA s b f a2 b2 = .ok (r, rl, rt) ∧
        (a2 < w → w < b2 → r = w ∧ rl = wl) ∧
        (w ≤ a2 → w ≤ r ∧ r ≤ a2) ∧
        (b2 ≤ w → b2 ≤ r ∧ r ≤ w)) :
    ∀ (ms : List G.Move) (alpha0 beta hab hmm : XQ) (bmA bmM : G.Move)
      (blA blM : List G.Move) (tA tM : List (ℕ × MoveTree)) (Hm : XQ)
      (BMm : G.Move) (BLm : List G.Move) (Tm : List (ℕ × MoveTree)),
      mmLoop G childM false board flags ms (hmm, bmM, blM, tM) =
        .ok (Hm, BMm, BLm, Tm) →
      max alpha0 hab < beta →
      hab ≤ max alpha0 hmm →
      hmm ≤ hab →
      (alpha0 < hmm → hab = hmm ∧ bmA = bmM ∧ blA = blM) →
      ∃ (Ha : XQ) (BMa : G.Move) (BLa : List G.Move)
        (Ta : List (ℕ × MoveTree)),
        abLoop G childA false board flags ms (max alpha0 hab) beta
          (hab, bmA, blA, tA) = .ok (Ha, BMa, BLa, Ta) ∧
        (alpha0 < Hm → Hm < beta → Ha = Hm ∧ BMa = BMm ∧ BLa = BLm) ∧
        (Hm ≤ alpha0 → Hm ≤ Ha ∧ Ha ≤ alpha0) ∧
        (beta ≤ Hm → beta ≤ Ha ∧ Ha ≤ Hm) := by
  intro ms
  induction ms with
  | nil =>
    intro alpha0 beta hab hmm bmA bmM blA blM tA tM Hm BMm BLm Tm hrunM hb
      hub hlb hsync
    simp [mmLoop] at hrunM
    obtain ⟨e1, e2, e3, _⟩ := hrunM
    subst e1; subst e2; subst e3
    refine ⟨hab, bmA, blA, tA, by rw [abLoop], ?_, ?_, ?_⟩
    · intro h1 _
      exact hsync h1
    · intro h1
      rw [max_eq_left h1] at hub
      exact ⟨hlb, hub⟩
    · intro h1
      exact absurd h1 (not_le.mpr
        (lt_of_le_of_lt (le_trans hlb (le_max_right alpha0 hab)) hb))
  | cons mv rest ih =>
    intro alpha0 beta hab hmm bmA bmM blA blM tA tM Hm BMm BLm Tm hrunM hb
      hub hlb hsync
    rw [mmLoop] at hrunM
    match hmk : G.makeMove false board flags mv with
    | (ns, nb, nf) =>
      simp only [hmk] at hrunM
      match hch : childM ns nb nf with
      | .error e => simp [hch] at hrunM
      | .ok (w, wl, wt) =>
        simp only [hch] at hrunM
        obtain ⟨r, rl, rt, hchA, hexact, hlow, hhigh⟩ :=
          hkm ns nb nf w wl wt hch (max alpha0 hab) beta hb
        have hab_le : hab ≤ max alpha0 hab := le_max_right alpha0 hab
        have hAm : max alpha0 hab ≤ max alpha0 hmm :=
          max_le (le_max_left _ _) hub
        rcases le_or_lt w (max alpha0 hab) with hA | hgt
        · -- child fails low: w ≤ r ≤ max alpha0 hab
          obtain ⟨hwr, hra⟩ := hlow hA
          have hvac : alpha0 < w → hmm < w → False := by
            intro hs hmw
            rcases max_cases alpha0 hab with ⟨hm, hle⟩ | ⟨hm, hlt⟩
            · rw [hm] at hA
              exact absurd hs (not_lt.mpr hA)
            · rw [hm] at hA
              rcases max_cases alpha0 hmm with ⟨hm2, hle2⟩ | ⟨hm2, hlt2⟩
              · rw [hm2] at hub
                exact absurd hs (not_lt.mpr (le_trans hA hub))
              · rw [hm2] at hub
                exact absurd hmw (not_lt.mpr (le_trans hA hub))
          by_cases habr : betterB false hab r = true
          · -- alphabeta updates its running best to (r, mv, rl)
            have habr' : hab < r := by simpa [betterB] using habr
            have hmaxr : max (max alpha0 hab) r = max alpha0 hab :=
              max_eq_left hra
            have halt : max (max alpha0 hab) r = max alpha0 r := by
              rw [max_assoc, max_eq_right (le_of_lt habr')]
            have heqA : max alpha0 r = max alpha0 hab := halt.symm.trans hmaxr
            have hcut : cutB false (max alpha0 hab) beta r = false := by
              rw [cutB_false]
              simp only [decide_eq_false_iff_not, not_le]
              rw [hmaxr]
              exact hb
            have hstep : abLoop G childA false board flags (mv :: rest)
                (max alpha0 hab) beta (hab, bmA, blA, tA) =
                abLoop G childA false board flags rest
                  (nextBounds false (max alpha0 hab) beta r).1
                  (nextBounds false (max alpha0 hab) beta r).2
                  (r, mv, rl, dictSet tA (G.encode mv) rt) := by
              rw [abLoop]
              simp only [hmk, hchA, habr, if_true, hcut, Bool.false_eq_true,
                if_false]
            rw [nextBounds_false] at hstep
            simp only at hstep
            by_cases hmw : betterB false hmm w = true
            · -- minimax updates to (w, mv, wl)
              have hmw' : hmm < w := by simpa [betterB] using hmw
              rw [if_pos hmw] at hrunM
              have hub' : r ≤ max alpha0 w :=
                le_trans hra (le_trans hAm
                  (max_le_max (le_refl alpha0) (le_of_lt hmw')))
              obtain ⟨Ha, BMa, BLa, Ta, habEq, c1, c2, c3⟩ :=
                ih alpha0 beta r w mv mv rl wl
                  (dictSet tA (G.encode mv) rt) _ Hm BMm BLm Tm hrunM
                  (heqA ▸ hb) hub' hwr
                  (fun hs => absurd hs (fun hs' => hvac hs' hmw'))
              rw [heqA] at habEq
              rw [hmaxr] at hstep
              exact ⟨Ha, BMa, BLa, Ta, hstep.trans habEq, c1, c2, c3⟩
            · -- minimax keeps (hmm, bmM, blM)
              have hmw' : ¬ hmm < w := by simpa [betterB] using hmw
              rw [if_neg (by simpa using hmw)] at hrunM
              have hub' : r ≤ max alpha0 hmm := le_trans hra hAm
              have hlb' : hmm ≤ r := le_trans hlb (le_of_lt habr')
              have hsync' : alpha0 < hmm →
                  r = hmm ∧ mv = bmM ∧ rl = blM := by
                intro hs
                exfalso
                obtain ⟨he1, _, _⟩ := hsync hs
                have hmx : max alpha0 hab = hab := by
                  rw [he1]
                  exact max_eq_right (le_of_lt hs)
                rw [hmx] at hra
                exact absurd habr' (not_lt.mpr hra)
              obtain ⟨Ha, BMa, BLa, Ta, habEq, c1, c2, c3⟩ :=
                ih alpha0 beta r hmm mv bmM rl blM
                  (dictSet tA (G.encode mv) rt) _ Hm BMm BLm Tm hrunM
                  (heqA ▸ hb) hub' hlb' hsync'
              rw [heqA] at habEq
              rw [hmaxr] at hstep
              exact ⟨Ha, BMa, BLa, Ta, hstep.trans habEq, c1, c2, c3⟩
          · -- alphabeta keeps (hab, bmA, blA)
            have habr' : r ≤ hab := by
              have := (Bool.not_eq_true _).mp habr
              simpa [betterB] using this
            have hmaxh : max (max alpha0 hab) hab = max alpha0 hab :=
              max_eq_left hab_le
            have hcut : cutB false (max alpha0 hab) beta hab = false := by
              rw [cutB_false]
              simp only [decide_eq_false_iff_not, not_le]
              rw [hmaxh]
              exact hb
            have hstep : abLoop G childA false board flags (mv :: rest)
                (max alpha0 hab) beta (hab, bmA, blA, tA) =
                abLoop G childA false board flags rest
                  (nextBounds false (max alpha0 hab) beta hab).1
                  (nextBounds false (max alpha0 hab) beta hab).2
                  (hab, bmA, blA, dictSet tA (G.encode mv) rt) := by
              rw [abLoop]
              simp only [hmk, hchA, habr, Bool.false_eq_true, if_false, hcut,
                if_true]
            rw [nextBounds_false] at hstep
            simp only at hstep
            rw [hmaxh] at hstep
            by_cases hmw : betterB false hmm w = true
            · have hmw' : hmm < w := by simpa [betterB] using hmw
              rw [if_pos hmw] at hrunM
              have hub' : hab ≤ max alpha0 w :=
                le_trans hub (max_le_max (le_refl alpha0) (le_of_lt hmw'))
              have hlb' : w ≤ hab := le_trans hwr habr'
              obtain ⟨Ha, BMa, BLa, Ta, habEq, c1, c2, c3⟩ :=
                ih alpha0 beta hab w bmA mv blA wl
                  (dictSet tA (G.encode mv) rt) _ Hm BMm BLm Tm hrunM
                  hb hub' hlb'
                  (fun hs => absurd hs (fun hs' => hvac hs' hmw'))
              exact ⟨Ha, BMa, BLa, Ta, hstep.trans habEq, c1, c2, c3⟩
            · rw [if_neg (by simpa using hmw)] at hrunM
              obtain ⟨Ha, BMa, BLa, Ta, habEq, c1, c2, c3⟩ :=
                ih alpha0 beta hab hmm bmA bmM blA blM
                  (dictSet tA (G.encode mv) rt) _ Hm BMm BLm Tm hrunM
                  hb hub hlb hsync
              exact ⟨Ha, BMa, BLa, Ta, hstep.trans habEq, c1, c2, c3⟩
        · rcases lt_or_le w beta with hwb | hbw
          · -- exact window: r = w, rl = wl, both update, no cut
            obtain ⟨hrw, hrlw⟩ := hexact hgt hwb
            rw [hrw, hrlw] at hchA
            have habr : betterB false hab w = true := by
              simp [betterB]
              exact lt_of_le_of_lt hab_le hgt
            have hmw : betterB false hmm w = true := by
              simp [betterB]
              exact lt_of_le_of_lt (le_trans hlb hab_le) hgt
            have hmaxw : max (max alpha0 hab) w = w :=
              max_eq_right (le_of_lt hgt)
            have heqA : max alpha0 w = w :=
              max_eq_right (le_of_lt (lt_of_le_of_lt (le_max_left _ _) hgt))
            have hcut : cutB false (max alpha0 hab) beta w = false := by
              rw [cutB_false]
              simp only [decide_eq_false_iff_not, not_le]
              rw [hmaxw]
              exact hwb
            have hstep : abLoop G childA false board flags (mv :: rest)
                (max alpha0 hab) beta (hab, bmA, blA, tA) =
                abLoop G childA false board flags rest
                  (nextBounds false (max alpha0 hab) beta w).1
                  (nextBounds false (max alpha0 hab) beta w).2
                  (w, mv, wl, dictSet tA (G.encode mv) rt) := by
              rw [abLoop]
              simp only [hmk, hchA, habr, if_true, hcut, Bool.false_eq_true,
                if_false]
            rw [nextBounds_false] at hstep
            simp only at hstep
            rw [hmaxw] at hstep
            rw [if_pos hmw] at hrunM
            obtain ⟨Ha, BMa, BLa, Ta, habEq, c1, c2, c3⟩ :=
              ih alpha0 beta w w mv mv wl wl
                (dictSet tA (G.encode mv) rt) _ Hm BMm BLm Tm hrunM
                (by rw [heqA]; exact hwb) (le_max_right alpha0 w)
                (le_refl w) (fun _ => ⟨rfl, rfl, rfl⟩)
            rw [heqA] at habEq
            exact ⟨Ha, BMa, BLa, Ta, hstep.trans habEq, c1, c2, c3⟩
          · -- child fails high: beta ≤ r ≤ w, cutoff fires
            obtain ⟨hbr, hrw⟩ := hhigh hbw
            have habr : betterB false hab r = true := by
              simp [betterB]
              exact lt_of_le_of_lt hab_le (lt_of_lt_of_le hb hbr)
            have hcut : cutB false (max alpha0 hab) beta r = true := by
              rw [cutB_false]
              simp only [decide_eq_true_eq]
              exact le_trans hbr (le_max_right _ _)
            have hstep : abLoop G childA false board flags (mv :: rest)
                (max alpha0 hab) beta (hab, bmA, blA, tA) =
                .ok (r, mv, rl, dictSet tA (G.encode mv) rt) := by
              rw [abLoop]
              simp only [hmk, hchA, habr, if_true, hcut]
            have hmw : betterB false hmm w = true := by
              simp [betterB]
              exact lt_of_le_of_lt (le_trans hlb hab_le)
                (lt_of_lt_of_le hb hbw)
            rw [if_pos hmw] at hrunM
            have hwHm : w ≤ Hm := mmLoop_mono_max G childM board flags rest
              w mv wl _ Hm BMm BLm Tm hrunM
            refine ⟨r, mv, rl, dictSet tA (G.encode mv) rt, hstep, ?_, ?_, ?_⟩
            · intro _ h2
              exact absurd h2 (not_lt.mpr (le_trans hbw hwHm))
            · intro h1
              exact absurd (lt_of_le_of_lt (le_trans (le_trans hbw hwHm)
                (le_trans h1 (le_max_left alpha0 hab))) hb) (lt_irrefl beta)
            · intro _
              exact ⟨hbr, le_trans hrw hwHm⟩

theorem abLoopKM_min (G : Game)
    (childM : Bool → G.Board → G.Flags → Except Err (SR G))
    (childA : Bool → G.Board → G.Flags → XQ → XQ → Except Err (SR G))
    (board : G.Board) (flags : G.Flags)
    (hkm : ∀ (s : Bool) (b : G.Board) (f : G.Flags) (w : XQ)
      (wl : List G.Move) (wt : MoveTree), childM s b f = .ok (w, wl, wt) →
      ∀ (a2 b2 : XQ), a2 < b2 →
      ∃ (r : XQ) (rl : List G.Move) (rt : MoveTree),
        childA s b f a2 b2 = .ok (r, rl, rt) ∧
        (a2 < w → w < b2 → r = w ∧ rl = wl) ∧
        (w ≤ a2 → w ≤ r ∧ r ≤ a2) ∧
        (b2 ≤ w → b2 ≤ r ∧ r ≤ w)) :
    ∀ (ms : List G.Move) (alpha0 beta0 hab hmm : XQ) (bmA bmM : G.Move)
      (blA blM : List G.Move) (tA tM : List (ℕ × MoveTree)) (Hm : XQ)
      (BMm : G.Move) (BLm : List G.Move) (Tm : List (ℕ × MoveTree)),
      mmLoop G childM true board flags ms (hmm, bmM, blM, tM) =
        .ok (Hm, BMm, BLm, Tm) →
      alpha0 < min beta0 hab →
      min beta0 hmm ≤ hab →
      hab ≤ hmm →
      (hmm < beta0 → hab = hmm ∧ bmA = bmM ∧ blA = blM) →
      ∃ (Ha : XQ) (BMa : G.Move) (BLa : List G.Move)
        (Ta : List (ℕ × MoveTree)),
        abLoop G childA true board flags ms alpha0 (min beta0 hab)
          (hab, bmA, blA, tA) = .ok (Ha, BMa, BLa, Ta) ∧
        (alpha0 < Hm → Hm < beta0 → Ha = Hm ∧ BMa = BMm ∧ BLa = BLm) ∧
        (Hm ≤ alpha0 → Hm ≤ Ha ∧ Ha ≤ alpha0) ∧
        (beta0 ≤ Hm → beta0 ≤ Ha ∧ Ha ≤ Hm) := by
  intro ms
  induction ms with
  | nil =>
    intro alpha0 beta0 hab hmm bmA bmM blA blM tA tM Hm BMm BLm Tm hrunM hb
      hub hlb hsync
    simp [mmLoop] at hrunM
    obtain ⟨e1, e2, e3, _⟩ := hrunM
    subst e1; subst e2; subst e3
    refine ⟨hab, bmA, blA, tA, by rw [abLoop], ?_, ?_, ?_⟩
    · intro _ h2
      exact hsync h2
    · intro h1
      exact absurd h1 (not_le.mpr
        (lt_of_lt_of_le hb (le_trans (min_le_right beta0 hab) hlb)))
    · intro h1
      rw [min_eq_left h1] at hub
      exact ⟨hub, hlb⟩
  | cons mv rest ih =>
    intro alpha0 beta0 hab hmm bmA bmM blA blM tA tM Hm BMm BLm Tm hrunM hb
      hub hlb hsync
    rw [mmLoop] at hrunM
    match hmk : G.makeMove true board flags mv with
    | (ns, nb, nf) =>
      simp only [hmk] at hrunM
      match hch : childM ns nb nf with
      | .error e => simp [hch] at hrunM
      | .ok (w, wl, wt) =>
        simp only [hch] at hrunM
        obtain ⟨r, rl, rt, hchA, hexact, hlow, hhigh⟩ :=
          hkm ns nb nf w wl wt hch alpha0 (min beta0 hab) hb
        have hab_le : min beta0 hab ≤ hab := min_le_right beta0 hab
        have hAm : min beta0 hmm ≤ min beta0 hab :=
          le_min (min_le_left _ _) hub
        rcases le_or_lt (min beta0 hab) w with hA | hgt
        · -- child fails high: min beta0 hab ≤ r ≤ w
          obtain ⟨hbr, hrw⟩ := hhigh hA
          have hvac : w < beta0 → w < hmm → False := by
            intro hs hmw
            rcases min_cases beta0 hab with ⟨hm, hle⟩ | ⟨hm, hlt⟩
            · rw [hm] at hA
              exact absurd hs (not_lt.mpr hA)
            · rw [hm] at hA
              rcases min_cases beta0 hmm with ⟨hm2, hle2⟩ | ⟨hm2, hlt2⟩
              · rw [hm2] at hub
                exact absurd hs (not_lt.mpr (le_trans hub hA))
              · rw [hm2] at hub
                exact absurd hmw (not_lt.mpr (le_trans hub hA))
          by_cases habr : betterB true hab r = true
          · -- alphabeta updates its running best to (r, mv, rl)
            have habr' : r < hab := by simpa [betterB] using habr
            have hminr : min (min beta0 hab) r = min beta0 hab :=
              min_eq_left hbr
            have halt : min (min beta0 hab) r = min beta0 r := by
              rw [min_assoc, min_eq_right (le_of_lt habr')]
            have heqB : min beta0 r = min beta0 hab := halt.symm.trans hminr
            have hcut : cutB true alpha0 (min beta0 hab) r = false := by
              rw [cutB_true]
              simp only [decide_eq_false_iff_not, not_le]
              rw [hminr]
              exact hb
            have hstep : abLoop G childA true board flags (mv :: rest)
                alpha0 (min beta0 hab) (hab, bmA, blA, tA) =
                abLoop G childA true board flags rest
                  (nextBounds true alpha0 (min beta0 hab) r).1
                  (nextBounds true alpha0 (min beta0 hab) r).2
                  (r, mv, rl, dictSet tA (G.encode mv) rt) := by
              rw [abLoop]
              simp only [hmk, hchA, habr, if_true, hcut, Bool.false_eq_true,
                if_false]
            rw [nextBounds_true] at hstep
            simp only at hstep
            by_cases hmw : betterB true hmm w = true
            · -- minimax updates to (w, mv, wl)
              have hmw' : w < hmm := by simpa [betterB] using hmw
              rw [if_pos hmw] at hrunM
              have hub' : min beta0 w ≤ r :=
                le_trans (le_trans
                  (min_le_min (le_refl beta0) (le_of_lt hmw')) hAm) hbr
              obtain ⟨Ha, BMa, BLa, Ta, habEq, c1, c2, c3⟩ :=
                ih alpha0 beta0 r w mv mv rl wl
                  (dictSet tA (G.encode mv) rt) _ Hm BMm BLm Tm hrunM
                  (heqB ▸ hb) hub' hrw
                  (fun hs => absurd hs (fun hs' => hvac hs' hmw'))
              rw [heqB] at habEq
              rw [hminr] at hstep
              exact ⟨Ha, BMa, BLa, Ta, hstep.trans habEq, c1, c2, c3⟩
            · -- minimax keeps (hmm, bmM, blM)
              rw [if_neg (by simpa using hmw)] at hrunM
              have hub' : min beta0 hmm ≤ r := le_trans hAm hbr
              have hlb' : r ≤ hmm := le_trans (le_of_lt habr') hlb
              have hsync' : hmm < beta0 →
                  r = hmm ∧ mv = bmM ∧ rl = blM := by
                intro hs
                exfalso
                obtain ⟨he1, _, _⟩ := hsync hs
                have hmx : min beta0 hab = hab := by
                  rw [he1]
                  exact min_eq_right (le_of_lt hs)
                rw [hmx] at hbr
                exact absurd habr' (not_lt.mpr hbr)
              obtain ⟨Ha, BMa, BLa, Ta, habEq, c1, c2, c3⟩ :=
                ih alpha0 beta0 r hmm mv bmM rl blM
                  (dictSet tA (G.encode mv) rt) _ Hm BMm BLm Tm hrunM
                  (heqB ▸ hb) hub' hlb' hsync'
              rw [heqB] at habEq
              rw [hminr] at hstep
              exact ⟨Ha, BMa, BLa, Ta, hstep.trans habEq, c1, c2, c3⟩
          · -- alphabeta keeps (hab, bmA, blA)
            have habr' : hab ≤ r := by
              have := (Bool.not_eq_true _).mp habr
              simpa [betterB] using this
            have hminh : min (min beta0 hab) hab = min beta0 hab :=
              min_eq_left hab_le
            have hcut : cutB true alpha0 (min beta0 hab) hab = false := by
              rw [cutB_true]
              simp only [decide_eq_false_iff_not, not_le]
              rw [hminh]
              exact hb
            have hstep : abLoop G childA true board flags (mv :: rest)
                alpha0 (min beta0 hab) (hab, bmA, blA, tA) =
                abLoop G childA true board flags rest
                  (nextBounds true alpha0 (min beta0 hab) hab).1
                  (nextBounds true alpha0 (min beta0 hab) hab).2
                  (hab, bmA, blA, dictSet tA (G.encode mv) rt) := by
              rw [abLoop]
              simp only [hmk, hchA, habr, Bool.false_eq_true, if_false, hcut,
                if_true]
            rw [nextBounds_true] at hstep
            simp only at hstep
            rw [hminh] at hstep
            by_cases hmw : betterB true hmm w = true
            · have hmw' : w < hmm := by simpa [betterB] using hmw
              rw [if_pos hmw] at hrunM
              have hub' : min beta0 w ≤ hab :=
                le_trans (min_le_min (le_refl beta0) (le_of_lt hmw')) hub
              have hlb' : hab ≤ w := le_trans habr' hrw
              obtain ⟨Ha, BMa, BLa, Ta, habEq, c1, c2, c3⟩ :=
                ih alpha0 beta0 hab w bmA mv blA wl
                  (dictSet tA (G.encode mv) rt) _ Hm BMm BLm Tm hrunM
                  hb hub' hlb'
                  (fun hs => absurd hs (fun hs' => hvac hs' hmw'))
              exact ⟨Ha, BMa, BLa, Ta, hstep.trans habEq, c1, c2, c3⟩
            · rw [if_neg (by simpa using hmw)] at hrunM
              obtain ⟨Ha, BMa, BLa, Ta, habEq, c1, c2, c3⟩ :=
                ih alpha0 beta0 hab hmm bmA bmM blA blM
                  (dictSet tA (G.encode mv) rt) _ Hm BMm BLm Tm hrunM
                  hb hub hlb hsync
              exact ⟨Ha, BMa, BLa, Ta, hstep.trans habEq, c1, c2, c3⟩
        · rcases lt_or_le alpha0 w with hwb | hbw
          · -- exact window: r = w, rl = wl, both update, no cut
            obtain ⟨hrw, hrlw⟩ := hexact hwb hgt
            rw [hrw, hrlw] at hchA
            have habr : betterB true hab w = true := by
              simp [betterB]
              exact lt_of_lt_of_le hgt hab_le
            have hmw : betterB true hmm w = true := by
              simp [betterB]
              exact lt_of_lt_of_le hgt (le_trans hab_le hlb)
            have hminw : min (min beta0 hab) w = w :=
              min_eq_right (le_of_lt hgt)
            have heqB : min beta0 w = w :=
              min_eq_right (le_of_lt (lt_of_lt_of_le hgt (min_le_left _ _)))
            have hcut : cutB true alpha0 (min beta0 hab) w = false := by
              rw [cutB_true]
              simp only [decide_eq_false_iff_not, not_le]
              rw [hminw]
              exact hwb
            have hstep : abLoop G childA true board flags (mv :: rest)
                alpha0 (min beta0 hab) (hab, bmA, blA, tA) =
                abLoop G childA true board flags rest
                  (nextBounds true alpha0 (min beta0 hab) w).1
                  (nextBounds true alpha0 (min beta0 hab) w).2
                  (w, mv, wl, dictSet tA (G.encode mv) rt) := by
              rw [abLoop]
              simp only [hmk, hchA, habr, if_true, hcut, Bool.false_eq_true,
                if_false]
            rw [nextBounds_true] at hstep
            simp only at hstep
            rw [hminw] at hstep
            rw [if_pos hmw] at hrunM
            obtain ⟨Ha, BMa, BLa, Ta, habEq, c1, c2, c3⟩ :=
              ih alpha0 beta0 w w mv mv wl wl
                (dictSet tA (G.encode mv) rt) _ Hm BMm BLm Tm hrunM
                (by rw [heqB]; exact hwb) (min_le_right beta0 w)
                (le_refl w) (fun _ => ⟨rfl, rfl, rfl⟩)
            rw [heqB] at habEq
            exact ⟨Ha, BMa, BLa, Ta, hstep.trans habEq, c1, c2, c3⟩
          · -- child fails low: w ≤ r ≤ alpha0, cutoff fires
            obtain ⟨hwr, hra⟩ := hlow hbw
            have habr : betterB true hab r = true := by
              simp [betterB]
              exact lt_of_le_of_lt hra (lt_of_lt_of_le hb hab_le)
            have hcut : cutB true alpha0 (min beta0 hab) r = true := by
              rw [cutB_true]
              simp only [decide_eq_true_eq]
              exact le_trans (min_le_right _ _) hra
            have hstep : abLoop G childA true board flags (mv :: rest)
                alpha0 (min beta0 hab) (hab, bmA, blA, tA) =
                .ok (r, mv, rl, dictSet tA (G.encode mv) rt) := by
              rw [abLoop]
              simp only [hmk, hchA, habr, if_true, hcut]
            have hmw : betterB true hmm w = true := by
              simp [betterB]
              exact lt_of_le_of_lt hbw
                (lt_of_lt_of_le hb (le_trans hab_le hlb))
            rw [if_pos hmw] at hrunM
            have hwHm : Hm ≤ w := mmLoop_mono_min G childM board flags rest
              w mv wl _ Hm BMm BLm Tm hrunM
            refine ⟨r, mv, rl, dictSet tA (G.encode mv) rt, hstep, ?_, ?_, ?_⟩
            · intro h1 _
              exact absurd h1 (not_lt.mpr (le_trans hwHm hbw))
            · intro _
              exact ⟨le_trans hwHm hwr, hra⟩
            · intro h1
              exact absurd (lt_of_le_of_lt (le_trans h1 (le_trans hwHm hbw))
                (lt_of_lt_of_le hb (min_le_left beta0 hab))) (lt_irrefl beta0)

theorem xq_le_pinf (x : XQ) : x ≤ XQ.pinf := by
  cases x with
  | none => exact bot_le
  | some y => exact WithBot.coe_le_coe.mpr le_top

theorem km_main (G : Game) :
    ∀ (d : ℕ) (side : Bool) (board : G.Board) (flags : G.Flags) (v : XQ)
      (ml : List G.Move) (mt : MoveTree),
      minimax G side board flags d = .ok (v, ml, mt) →
      ∀ (alpha beta : XQ), alpha < beta →
      ∃ (r : XQ) (rl : List G.Move) (rt : MoveTree),
        alphabeta G side board flags d alpha beta = .ok (r, rl, rt) ∧
        (alpha < v → v < beta → r = v ∧ rl = ml) ∧
        (v ≤ alpha → v ≤ r ∧ r ≤ alpha) ∧
        (beta ≤ v → beta ≤ r ∧ r ≤ v) := by
  intro d
  induction d with
  | zero =>
    intro side board flags v ml mt hmm alpha beta hlt
    rw [minimax] at hmm
    simp at hmm
    obtain ⟨hv, hml, hmt⟩ := hmm
    refine ⟨XQ.fin (G.evaluate board), [], .node [], by rw [alphabeta], ?_, ?_, ?_⟩
    · intro _ _
      exact ⟨hv, hml.symm⟩
    · intro h1
      exact ⟨le_of_eq hv.symm, hv ▸ h1⟩
    · intro h1
      exact ⟨hv ▸ h1, le_of_eq hv⟩
  | succ d ih =>
    intro side board flags v ml mt hmm alpha beta hlt
    rw [minimax] at hmm
    match hms : G.generateMoves side board flags with
    | [] => simp [hms] at hmm
    | m0 :: rest =>
      simp only [hms] at hmm
      cases side with
      | false =>
        match hloop : mmLoop G (fun s b f => minimax G s b f d) false board
            flags (m0 :: rest) (XQ.ninf, m0, [], []) with
        | .error e =>
          rw [show ((if false then XQ.pinf else XQ.ninf : XQ), m0,
            ([] : List G.Move), ([] : List (ℕ × MoveTree))) =
            (XQ.ninf, m0, [], []) from rfl] at hmm
          simp [hloop] at hmm
        | .ok (Hm, BMm, BLm, Tm) =>
          rw [show ((if false then XQ.pinf else XQ.ninf : XQ), m0,
            ([] : List G.Move), ([] : List (ℕ × MoveTree))) =
            (XQ.ninf, m0, [], []) from rfl] at hmm
          simp only [hloop] at hmm
          simp at hmm
          obtain ⟨hv, hml, hmt⟩ := hmm
          obtain ⟨Ha, BMa, BLa, Ta, habEq, c1, c2, c3⟩ :=
            abLoopKM_max G (fun s b f => minimax G s b f d)
              (fun s b f a b2 => alphabeta G s b f d a b2) board flags
              (fun s b f w wl wt hok a2 b2 h2 => ih s b f w wl wt hok a2 b2 h2)
              (m0 :: rest) alpha beta XQ.ninf XQ.ninf m0 m0 [] [] [] []
              Hm BMm BLm Tm hloop
              (by rw [XQ.ninf, max_eq_left bot_le]; exact hlt)
              (by exact bot_le) (le_refl _)
              (fun hs => absurd hs (by rw [XQ.ninf]; exact not_lt_bot))
          rw [show max alpha XQ.ninf = alpha from max_eq_left bot_le] at habEq
          refine ⟨Ha, BMa :: BLa, .node Ta, ?_, ?_, ?_, ?_⟩
          · rw [alphabeta]
            simp only [hms]
            rw [show ((if false then XQ.pinf else XQ.ninf : XQ), m0,
              ([] : List G.Move), ([] : List (ℕ × MoveTree))) =
              (XQ.ninf, m0, [], []) from rfl]
            simp only [habEq]
          · intro h1 h2
            obtain ⟨e1, e2, e3⟩ := c1 (hv ▸ h1) (hv ▸ h2)
            refine ⟨e1.trans hv, ?_⟩
            rw [e2, e3, hml]
          · intro h1
            obtain ⟨e1, e2⟩ := c2 (hv ▸ h1)
            exact ⟨hv ▸ e1, e2⟩
          · intro h1
            obtain ⟨e1, e2⟩ := c3 (hv ▸ h1)
            exact ⟨e1, hv ▸ e2⟩
      | true =>
        match hloop : mmLoop G (fun s b f => minimax G s b f d) true board
            flags (m0 :: rest) (XQ.pinf, m0, [], []) with
        | .error e =>
          rw [show ((if true then XQ.pinf else XQ.ninf : XQ), m0,
            ([] : List G.Move), ([] : List (ℕ × MoveTree))) =
            (XQ.pinf, m0, [], []) from rfl] at hmm
          simp [hloop] at hmm
        | .ok (Hm, BMm, BLm, Tm) =>
          rw [show ((if true then XQ.pinf else XQ.ninf : XQ), m0,
            ([] : List G.Move), ([] : List (ℕ × MoveTree))) =
            (XQ.pinf, m0, [], []) from rfl] at hmm
          simp only [hloop] at hmm
          simp at hmm
          obtain ⟨hv, hml, hmt⟩ := hmm
          obtain ⟨Ha, BMa, BLa, Ta, habEq, c1, c2, c3⟩ :=
            abLoopKM_min G (fun s b f => minimax G s b f d)
              (fun s b f a b2 => alphabeta G s b f d a b2) board flags
              (fun s b f w wl wt hok a2 b2 h2 => ih s b f w wl wt hok a2 b2 h2)
              (m0 :: rest) alpha beta XQ.pinf XQ.pinf m0 m0 [] [] [] []
              Hm BMm BLm Tm hloop
              (by rw [min_eq_left (xq_le_pinf beta)]; exact hlt)
              (xq_le_pinf _) (le_refl _)
              (fun hs => absurd hs (not_lt.mpr (xq_le_pinf beta)))
          rw [show min beta XQ.pinf = beta from min_eq_left (xq_le_pinf beta)]
            at habEq
          refine ⟨Ha, BMa :: BLa, .node Ta, ?_, ?_, ?_, ?_⟩
          · rw [alphabeta]
            simp only [hms, if_true]
            simp only [habEq]
          · intro h1 h2
            obtain ⟨e1, e2, e3⟩ := c1 (hv ▸ h1) (hv ▸ h2)
            refine ⟨e1.trans hv, ?_⟩
            rw [e2, e3, hml]
          · intro h1
            obtain ⟨e1, e2⟩ := c2 (hv ▸ h1)
            exact ⟨hv ▸ e1, e2⟩
          · intro h1
            obtain ⟨e1, e2⟩ := c3 (hv ▸ h1)
            exact ⟨e1, hv ▸ e2⟩

/-- C1 fails as stated on the code: in `prGame` at depth 3, `minimax`
faults with `IndexError` (it reaches board 6, which has no legal moves,
and evaluates `moves[0]`), while `alphabeta` with its default bounds prunes
that branch after the cutoff at board 2 and returns normally — so alphabeta
does not return "the same value and moveList as minimax" there. -/
theorem alphabeta_returns_where_minimax_faults :
    minimax prGame false 0 () 3 = .error .indexError ∧
    alphabeta prGame false 0 () 3 XQ.ninf XQ.pinf =
      .ok (XQ.fin 5, [0, 2, 3],
        .node [(0, .node [(2, .node [(3, .node [])])]),
               (1, .node [(4, .node [(6, .node [])])])]) :=
  ⟨rfl, rfl⟩

/-- C1 amended: on every input where `minimax` returns (no empty-move-list
fault is reached), `alphabeta` with its default bounds `alpha = -inf`,
`beta = +inf` also returns, with the same value and the same moveList;
only the moveTree may differ. -/
theorem alphabeta_minimax_agree_of_ok (G : Game) (side : Bool)
    (board : G.Board) (flags : G.Flags) (d : ℕ) (v : XQ)
    (ml : List G.Move) (mt : MoveTree)
    (hmm : minimax G side board flags d = .ok (v, ml, mt)) :
    ∃ mt' : MoveTree,
      alphabeta G side board flags d XQ.ninf XQ.pinf = .ok (v, ml, mt') := by
  obtain ⟨q, hq⟩ := minimax_ok_fin G d side board flags v ml mt hmm
  have hlt : XQ.ninf < XQ.pinf := WithBot.bot_lt_coe _
  obtain ⟨r, rl, rt, habEq, hex, _, _⟩ :=
    km_main G d side board flags v ml mt hmm XQ.ninf XQ.pinf hlt
  have h1 : XQ.ninf < v := by
    rw [hq]
    exact WithBot.bot_lt_coe _
  have h2 : v < XQ.pinf := by
    rw [hq]
    exact WithBot.coe_lt_coe.mpr (WithTop.coe_lt_top q)
  obtain ⟨e1, e2⟩ := hex h1 h2
  refine ⟨rt, ?_⟩
  rw [habEq, e1, e2]

theorem alphabeta_minimax_agree_of_ok_witness :
    minimax toyGame false 0 () 2 =
      .ok (XQ.fin 0, [1, 0], .node [(2, .node [(1, .node [])])]) ∧
    ∃ mt' : MoveTree, alphabeta toyGame false 0 () 2 XQ.ninf XQ.pinf =
      .ok (XQ.fin 0, [1, 0], mt') := by
  have hrun : minimax toyGame false 0 () 2 =
      .ok (XQ.fin 0, [1, 0], .node [(2, .node [(1, .node [])])]) := by
    norm_num [minimax, mmLoop, toyGame, betterB, XQ.fin, XQ.ninf, XQ.pinf,
      dictSet]
    rw [if_pos (show (0 : XQ) < ⊤ by decide)]
    norm_num
    rw [if_pos (show (⊥ : XQ) < (0 : XQ) by decide)]
  exact ⟨hrun, alphabeta_minimax_agree_of_ok toyGame false 0 () 2 (XQ.fin 0)
    [1, 0] (.node [(2, .node [(1, .node [])])]) hrun⟩
